import Mathlib

/-!
# Verification of the CppFourierImage transform core

Shallow embedding of the 2D discrete Fourier transform engine, the
complex-image container, and the visualizer state machine of the
CppFourierImage repository, together with proofs and refutations of the
specification claims.

Modelling conventions:
* C++ `double` (`Scalar`) is idealized as the exact real numbers `ℝ`, and
  `std::complex<double>` as `ℂ`; floating-point rounding is outside the model.
* `ComplexImage` stores its dense row-major sample buffer as a `List ℂ`;
  the C++ class invariant `data_.size() == width_ * height_` is carried as an
  explicit hypothesis where a statement needs it.
* In-place algorithms are embedded as functions from the pre-state to the
  post-state of the buffer they mutate.

The repository carries two generations of `FourierTransform::transform2D`:
the one in `Source/FourierTransform.cpp` pads the input up to power-of-two
dimensions (namespace `PadVariant` below), while the revision appended in
`Source/RgbComplexImage.cpp` transforms at the original size with a
zero-area guard (the unprefixed `transform2D` below).  Both share the same
1D kernels (`fft1D`, `cooleyTukeyFFT`, `dft`), which are embedded once.
-/

open Complex Finset

noncomputable section

/-- `ComplexImage` (Include/ComplexImage.hpp): a width, a height and a dense
row-major buffer of complex samples. -/
structure ComplexImage where
  width : ℕ
  height : ℕ
  data : List ℂ

/-- `ComplexImage::at(x, y)` (Source/ComplexImage.cpp): row-major indexed
access `data_[y * width_ + x]`; out-of-range access is undefined behaviour in
the source, modelled here by the default value `0`.  Named `atXY` because
`at` is reserved in Lean. -/
def ComplexImage.atXY (img : ComplexImage) (x y : ℕ) : ℂ :=
  img.data.getD (y * img.width + x) 0

/-- Row-major image builder: the buffer entry at index `i` (so at coordinate
`(i % w, i / w)`) is `f (i % w) (i / w)`.  Used to express loops of the form
`for y { for x { out.at(x, y) = ...; } }`. -/
def mkImage (w h : ℕ) (f : ℕ → ℕ → ℂ) : ComplexImage :=
  ⟨w, h, (List.range (w * h)).map fun i => f (i % w) (i / w)⟩

/-- `ComplexImage::ComplexImage(width, height)`: zero-filled buffer. -/
def zeroImage (w h : ℕ) : ComplexImage := mkImage w h fun _ _ => 0

/-- `FourierTransform::Direction` (Include/FourierTransform.hpp). -/
inductive Direction
  | Forward
  | Inverse
deriving DecidableEq

/-- `angle_sign = (direction == Forward) ? -2.0 * PI : 2.0 * PI`
(Source/FourierTransform.cpp, `cooleyTukeyFFT` and `dft`). -/
def angleSign : Direction → ℝ
  | .Forward => -(2 * Real.pi)
  | .Inverse => 2 * Real.pi

/-- The `1/n` scaling applied to every sample after an inverse transform
(forward transforms are unnormalized). -/
def invScale : Direction → ℕ → ℂ
  | .Forward, _ => 1
  | .Inverse, n => 1 / (n : ℂ)

/-- `FourierTransform::dft` (Source/FourierTransform.cpp lines 105-128):
direct summation `out[k] = Σ_j data[j] * (cos θ + i sin θ)`,
`θ = angle_sign * k * j / n`, followed by the `1/n` scaling when inverse.
`cos θ + i sin θ` is `exp (θ * I)`. -/
def dft (d : Direction) (n : ℕ) (v : ℕ → ℂ) : ℕ → ℂ :=
  fun k => invScale d n * ∑ j ∈ Finset.range n,
    v j * Complex.exp ((angleSign d * k * j / n) * Complex.I)

/-- `k`-bit reversal of `i` (low `k` bits of `i`, reversed): the permutation
computed incrementally by the first loop of `cooleyTukeyFFT` via the
carry-propagating `j` update. -/
def bitRev : ℕ → ℕ → ℕ
  | 0, _ => 0
  | k + 1, i => bitRev k (i / 2) + i % 2 * 2 ^ k

/-- The twiddle factor `wlen = (cos angle, sin angle)`, `angle = angle_sign / len`
(Source/FourierTransform.cpp line 81). -/
def twiddle (d : Direction) (len : ℕ) : ℂ :=
  Complex.exp ((angleSign d / len) * Complex.I)

/-- One butterfly pass of block length `len` (Source/FourierTransform.cpp
lines 79-95) as a map on the buffer contents: within each block of `len`
positions, position `r < len/2` gets `u + w^r * v` and position `r ≥ len/2`
gets `u - w^(r - len/2) * v`, where `u`, `v` are the pre-pass values of the
paired positions and `w = wlen` (`w` is accumulated by `w *= wlen`, so its
value at inner index `j` is `wlen ^ j`). -/
def butterflyPass (d : Direction) (len : ℕ) (v : ℕ → ℂ) : ℕ → ℂ :=
  fun p =>
    if p % len < len / 2 then
      v p + twiddle d len ^ (p % len) * v (p + len / 2)
    else
      v (p - len / 2) - twiddle d len ^ (p % len - len / 2) * v p

/-- The cascade of butterfly passes `len = 2, 4, ..., 2^k` (the outer
`for (len = 2; len <= n; len <<= 1)` loop). -/
def ctPasses (d : Direction) : ℕ → (ℕ → ℂ) → ℕ → ℂ
  | 0, v => v
  | l + 1, v => butterflyPass d (2 ^ (l + 1)) (ctPasses d l v)

/-- Base-2 logarithm (for `n = 2^k` returns `k`); used to recover the pass
count from the length. -/
def lg : ℕ → ℕ
  | 0 => 0
  | 1 => 0
  | n + 2 => lg ((n + 2) / 2) + 1
termination_by n => n
decreasing_by simp_wf; omega

/-- `FourierTransform::cooleyTukeyFFT` (Source/FourierTransform.cpp lines
63-103): bit-reversal permutation pass (the in-place conditional-swap loop
realizes exactly the permutation `p ↦ bitRev k p` of the buffer), then the
butterfly passes, then the `1/n` scaling when inverse. -/
def cooleyTukeyFFT (d : Direction) (n : ℕ) (v : ℕ → ℂ) : ℕ → ℂ :=
  fun p => invScale d n * ctPasses d (lg n) (fun q => v (bitRev (lg n) q)) p

/-- `FourierTransform::fft1D` (Source/FourierTransform.cpp lines 52-61):
return unchanged for `n ≤ 1`; dispatch to the radix-2 FFT when `n` is an
exact power of two (the source tests `(n & (n-1)) == 0`, equivalent to
`n = 2 ^ lg n` for `n ≥ 1`), otherwise to the direct DFT. -/
def fft1D (d : Direction) (n : ℕ) (v : ℕ → ℂ) : ℕ → ℂ :=
  if n ≤ 1 then v
  else if n = 2 ^ lg n then cooleyTukeyFFT d n v
  else dft d n v

/-- `FourierTransform::fft2D` (Source/FourierTransform.cpp lines 25-50):
every row is transformed, then every column, each axis completed before the
next begins. -/
def fft2D (img : ComplexImage) (d : Direction) : ComplexImage :=
  let rows := mkImage img.width img.height fun x y =>
    fft1D d img.width (fun u => img.atXY u y) x
  mkImage img.width img.height fun x y =>
    fft1D d img.height (fun t => rows.atXY x t) y

/-- `FourierTransform::transform2D` as revised in the file appended to
Source/RgbComplexImage.cpp (lines 82-90 there): zero-area inputs return a
fresh `ComplexImage(0, 0)`; otherwise the input is copied and transformed in
place at its original size. -/
def transform2D (input : ComplexImage) (d : Direction) : ComplexImage :=
  if input.width = 0 ∨ input.height = 0 then ⟨0, 0, []⟩
  else fft2D input d

namespace PadVariant

/-- The `while (padded < w) padded <<= 1` doubling loop of
`ImageProcessor::padToPowerOfTwo`, with an explicit fuel argument bounding
the iteration count (`w` doublings always suffice, since `2^w ≥ w`). -/
def padLoop : ℕ → ℕ → ℕ → ℕ
  | 0, _, p => p
  | fuel + 1, w, p => if p < w then padLoop fuel w (2 * p) else p

/-- The padded size for one axis: doubling from `1` until `≥ w`. -/
def padDim (w : ℕ) : ℕ := padLoop w w 1

/-- `ImageProcessor::padToPowerOfTwo` (the ImageProcessor.cpp section of
Source/FourierTransform.cpp, lines 241-264): if both padded sizes already
equal the input sizes, return the input; otherwise a zero-filled padded image
with the input copied into its top-left corner. -/
def padToPowerOfTwo (input : ComplexImage) : ComplexImage :=
  let pw := padDim input.width
  let ph := padDim input.height
  if pw = input.width ∧ ph = input.height then input
  else mkImage pw ph fun x y =>
    if x < input.width ∧ y < input.height then input.atXY x y else 0

/-- `ImageProcessor::cropToOriginalSize`: copy the `ow × oh` top-left region. -/
def cropToOriginalSize (input : ComplexImage) (ow oh : ℕ) : ComplexImage :=
  mkImage ow oh fun x y => input.atXY x y

/-- `FourierTransform::transform2D` (Source/FourierTransform.cpp lines
12-23): pad to power-of-two sizes, transform, and crop back to the original
size only for the inverse direction. -/
def transform2D (input : ComplexImage) (d : Direction) : ComplexImage :=
  let padded := fft2D (padToPowerOfTwo input) d
  if d = Direction.Inverse then cropToOriginalSize padded input.width input.height
  else padded

end PadVariant

/-- `ComplexImage::fftShift` (Source/ComplexImage.cpp lines 87-101): for
`x < width/2, y < height/2` swap `(x,y) ↔ (x+hw, y+hh)` and
`(x+hw, y) ↔ (x, y+hh)`.  The swaps touch pairwise disjoint cells, so the
loop realizes the piecewise coordinate exchange below; cells with
`x ≥ 2*(width/2)` or `y ≥ 2*(height/2)` (the leftover row/column of
odd-dimensioned images) are untouched. -/
def fftShift (img : ComplexImage) : ComplexImage :=
  let hw := img.width / 2
  let hh := img.height / 2
  mkImage img.width img.height fun x y =>
    if x < 2 * hw ∧ y < 2 * hh then
      img.atXY (if x < hw then x + hw else x - hw) (if y < hh then y + hh else y - hh)
    else img.atXY x y

/-- `ComplexImage::ifftShift` (Source/ComplexImage.cpp lines 99-101):
literally calls `fftShift`. -/
def ifftShift (img : ComplexImage) : ComplexImage := fftShift img

/-- The running maximum `max_magnitude` computed by `ComplexImage::normalize`
(fold of `std::max` over `std::abs` of every sample, starting from `0.0`). -/
def maxMagnitude (img : ComplexImage) : ℝ :=
  img.data.foldl (fun m c => max m (Complex.abs c)) 0

/-- `std::numeric_limits<double>::epsilon()`, the machine epsilon `2⁻⁵²`. -/
def machineEps : ℝ := (2 : ℝ) ^ (-52 : ℤ)

/-- `ComplexImage::normalize` (Source/ComplexImage.cpp lines 72-85): return
unchanged when the maximum magnitude is at most machine epsilon, otherwise
divide every sample by the maximum magnitude. -/
def ComplexImage.normalize (img : ComplexImage) : ComplexImage :=
  if maxMagnitude img ≤ machineEps then img
  else ⟨img.width, img.height, img.data.map fun c => c / (maxMagnitude img : ℂ)⟩

/-- The `(magnitude, x, y)` tuples pushed by `getTopFrequencyIndices` in its
row-major scan (`y` outer, `x` inner, so list index `i = y*width + x`). -/
def magTuples (img : ComplexImage) : List (ℝ × ℕ × ℕ) :=
  (List.range (img.width * img.height)).map fun i =>
    (Complex.abs (img.atXY (i % img.width) (i / img.width)), i % img.width, i / img.width)

/-- Descending lexicographic comparison of `(magnitude, x, y)` tuples:
`tupleGE a b` holds when `a` sorts no later than `b` under
`std::greater<>` on `std::tuple<double, int, int>`. -/
def tupleGE (a b : ℝ × ℕ × ℕ) : Prop :=
  b.1 < a.1 ∨ (b.1 = a.1 ∧ (b.2.1 < a.2.1 ∨ (b.2.1 = a.2.1 ∧ b.2.2 ≤ a.2.2)))

instance : DecidableRel tupleGE := fun a b => by
  unfold tupleGE; infer_instance

instance : IsTotal (ℝ × ℕ × ℕ) tupleGE where
  total a b := by
    unfold tupleGE
    rcases lt_trichotomy a.1 b.1 with h | h | h
    · exact Or.inr (Or.inl h)
    · rcases lt_trichotomy a.2.1 b.2.1 with h2 | h2 | h2
      · exact Or.inr (Or.inr ⟨h, Or.inl h2⟩)
      · rcases le_total b.2.2 a.2.2 with h3 | h3
        · exact Or.inl (Or.inr ⟨h.symm, Or.inr ⟨h2.symm, h3⟩⟩)
        · exact Or.inr (Or.inr ⟨h, Or.inr ⟨h2, h3⟩⟩)
      · exact Or.inl (Or.inr ⟨h.symm, Or.inl h2⟩)
    · exact Or.inl (Or.inl h)

instance : IsTrans (ℝ × ℕ × ℕ) tupleGE where
  trans a b c hab hbc := by
    unfold tupleGE at *
    rcases hab with h1 | ⟨e1, h1⟩ <;> rcases hbc with h2 | ⟨e2, h2⟩
    · exact Or.inl (h2.trans h1)
    · exact Or.inl (e2.trans_lt h1)
    · exact Or.inl (h2.trans_eq e1)
    · refine Or.inr ⟨e2.trans e1, ?_⟩
      rcases h1 with h1 | ⟨f1, h1⟩ <;> rcases h2 with h2 | ⟨f2, h2⟩
      · exact Or.inl (h2.trans h1)
      · exact Or.inl (f2.trans_lt h1)
      · exact Or.inl (h2.trans_eq f1)
      · exact Or.inr ⟨f2.trans f1, h2.trans h1⟩

/-- `FourierTransform::getTopFrequencyIndices` (Source/FourierTransform.cpp
lines 174-202): collect every `(|sample|, x, y)` tuple in row-major order,
partial-sort the first `min(k, size)` into descending tuple order, and
return those tuples' coordinates.  All tuples are pairwise distinct (their
coordinates are), so `std::partial_sort` with `std::greater<>` produces
exactly the first `min(k, size)` elements of the fully descending-sorted
list, embedded here as sort-then-take. -/
def getTopFrequencyIndices (img : ComplexImage) (k : ℕ) : List (ℕ × ℕ) :=
  ((List.insertionSort tupleGE (magTuples img)).take
    (min k (magTuples img).length)).map fun t => (t.2.1, t.2.2)

/-- Write one sample (`result.at(x, y) = c`). -/
def setAtXY (img : ComplexImage) (x y : ℕ) (c : ℂ) : ComplexImage :=
  ⟨img.width, img.height, img.data.set (y * img.width + x) c⟩

/-- `FourierTransform::keepTopFrequencies` (Source/FourierTransform.cpp
lines 204-213): an all-zero image of the same size, populated with the
input's samples at the selected coordinates. -/
def keepTopFrequencies (fd : ComplexImage) (k : ℕ) : ComplexImage :=
  (getTopFrequencyIndices fd k).foldl
    (fun acc xy => setAtXY acc xy.1 xy.2 (fd.atXY xy.1 xy.2))
    (zeroImage fd.width fd.height)

/-- `RGBComplexImage` (Include/RgbComplexImage.hpp): three channels sharing
one width/height. -/
structure RGBComplexImage where
  width : ℕ
  height : ℕ
  ch0 : ComplexImage
  ch1 : ComplexImage
  ch2 : ComplexImage

/-- `RGBComplexImage(w, h)`: three zero-filled channels. -/
def zeroRGBImage (w h : ℕ) : RGBComplexImage :=
  ⟨w, h, zeroImage w h, zeroImage w h, zeroImage w h⟩

/-- `FourierTransform::keepTopFrequenciesRGB`: per-channel filtering. -/
def keepTopFrequenciesRGB (fd : RGBComplexImage) (k : ℕ) : RGBComplexImage :=
  ⟨fd.width, fd.height, keepTopFrequencies fd.ch0 k, keepTopFrequencies fd.ch1 k,
    keepTopFrequencies fd.ch2 k⟩

/-- `FourierTransform::transformRGB2D`: per-channel transform (the build
containing Source/FourierVisualizer.cpp links the padding `transform2D`). -/
def transformRGB2D (input : RGBComplexImage) (d : Direction) : RGBComplexImage :=
  ⟨input.width, input.height, PadVariant.transform2D input.ch0 d,
    PadVariant.transform2D input.ch1 d, PadVariant.transform2D input.ch2 d⟩

/-- `FourierVisualizer::AnimationState` (Include/FourierVisualizer.hpp lines
13-22), with the default member initializers of the header.  `Scalar` time
and speed values are idealized as exact rationals. -/
structure AnimationState where
  active_frequencies : List (ℕ × ℕ)
  reconstructed_image : ComplexImage
  reconstructed_rgb_image : RGBComplexImage
  current_frequency_count : ℕ
  is_animating : Bool
  animation_speed : ℚ
  time_accumulator : ℚ
  is_rgb : Bool

/-- The visualizer's data members (Include/FourierVisualizer.hpp lines
49-53; the event-dispatcher handle of the second revision is UI plumbing
outside this core). -/
structure FourierVisualizer where
  frequency_domain : ComplexImage
  rgb_frequency_domain : RGBComplexImage
  animation_state : AnimationState

/-- `FourierVisualizer::setImage` (Source/FourierVisualizer.cpp lines 8-17):
store the image, clear the active list, zero the count and the time
accumulator, select grayscale mode, and install an all-zero reconstruction
of the image's size.  The other state fields are left as they are. -/
def FourierVisualizer.setImage (s : FourierVisualizer) (fd : ComplexImage) :
    FourierVisualizer :=
  { s with
    frequency_domain := fd,
    animation_state := { s.animation_state with
      active_frequencies := [],
      current_frequency_count := 0,
      time_accumulator := 0,
      is_rgb := false,
      reconstructed_image := zeroImage fd.width fd.height } }

/-- `FourierVisualizer::setRGBImage` (Source/FourierVisualizer.cpp lines
19-28). -/
def FourierVisualizer.setRGBImage (s : FourierVisualizer) (fd : RGBComplexImage) :
    FourierVisualizer :=
  { s with
    rgb_frequency_domain := fd,
    animation_state := { s.animation_state with
      active_frequencies := [],
      current_frequency_count := 0,
      time_accumulator := 0,
      is_rgb := true,
      reconstructed_rgb_image := zeroRGBImage fd.width fd.height } }

/-- `FourierVisualizer::reconstructFromFrequencies` (Source/FourierVisualizer.cpp
lines 54-62): filter to the top `current_frequency_count` coordinates,
inverse-transform, and record the selected coordinates. -/
def FourierVisualizer.reconstructFromFrequencies (s : FourierVisualizer) :
    AnimationState :=
  { s.animation_state with
    reconstructed_image :=
      PadVariant.transform2D
        (keepTopFrequencies s.frequency_domain s.animation_state.current_frequency_count)
        Direction.Inverse,
    active_frequencies :=
      getTopFrequencyIndices s.frequency_domain s.animation_state.current_frequency_count }

/-- `FourierVisualizer::reconstructRGBFromFrequencies`
(Source/FourierVisualizer.cpp lines 99-109): per-channel filter and inverse
transform; this revision leaves `active_frequencies` untouched. -/
def FourierVisualizer.reconstructRGBFromFrequencies (s : FourierVisualizer) :
    AnimationState :=
  { s.animation_state with
    reconstructed_rgb_image :=
      transformRGB2D
        (keepTopFrequenciesRGB s.rgb_frequency_domain s.animation_state.current_frequency_count)
        Direction.Inverse }

/-- `FourierVisualizer::setFrequencyCount` (Source/FourierVisualizer.cpp
lines 30-39): a no-op when the count is unchanged; otherwise store the count
and rebuild the reconstruction for the active mode. -/
def FourierVisualizer.setFrequencyCount (s : FourierVisualizer) (k : ℕ) :
    FourierVisualizer :=
  if k = s.animation_state.current_frequency_count then s
  else
    let s1 : FourierVisualizer :=
      { s with animation_state := { s.animation_state with current_frequency_count := k } }
    { s1 with animation_state :=
        if s1.animation_state.is_rgb then s1.reconstructRGBFromFrequencies
        else s1.reconstructFromFrequencies }

/-- Truncation toward zero, the semantics of `static_cast<int>` on a
non-integral value. -/
def ratTrunc (q : ℚ) : ℤ := if 0 ≤ q then ⌊q⌋ else ⌈q⌉

/-- `FourierVisualizer::updateAnimation` (Source/FourierVisualizer.cpp lines
41-52): a no-op unless animating; otherwise accumulate `delta_time * speed`,
derive `target = min(trunc(accumulator * 10), width * height)` from the held
(grayscale) frequency-domain image, and call `setFrequencyCount` only when
the target differs from the current count.  (`Int.toNat` models the cast of
the non-negative target into the unsigned count; a negative target cannot
arise from non-negative accumulator, speed and delta.) -/
def FourierVisualizer.updateAnimation (s : FourierVisualizer) (dt : ℚ) :
    FourierVisualizer :=
  if s.animation_state.is_animating = false then s
  else
    let acc := s.animation_state.time_accumulator + dt * s.animation_state.animation_speed
    let s1 : FourierVisualizer :=
      { s with animation_state := { s.animation_state with time_accumulator := acc } }
    let target : ℤ :=
      min (ratTrunc (acc * 10))
        ((s.frequency_domain.width * s.frequency_domain.height : ℕ) : ℤ)
    if target.toNat ≠ s1.animation_state.current_frequency_count then
      s1.setFrequencyCount target.toNat
    else s1

/-! ## Basic image lemmas -/

@[simp] theorem mkImage_width (w h : ℕ) (f : ℕ → ℕ → ℂ) : (mkImage w h f).width = w := rfl

@[simp] theorem mkImage_height (w h : ℕ) (f : ℕ → ℕ → ℂ) : (mkImage w h f).height = h := rfl

@[simp] theorem mkImage_data_length (w h : ℕ) (f : ℕ → ℕ → ℂ) :
    (mkImage w h f).data.length = w * h := by
  simp [mkImage]

theorem mkImage_atXY {w h x y : ℕ} (f : ℕ → ℕ → ℂ) (hx : x < w) (hy : y < h) :
    (mkImage w h f).atXY x y = f x y := by
  have hidx : y * w + x < w * h := by
    calc y * w + x < y * w + w := by omega
    _ = (y + 1) * w := by ring
    _ ≤ h * w := Nat.mul_le_mul_right w hy
    _ = w * h := Nat.mul_comm h w
  have hmod : (y * w + x) % w = x := by
    rw [Nat.add_comm, Nat.add_mul_mod_self_right, Nat.mod_eq_of_lt hx]
  have hdiv : (y * w + x) / w = y := by
    rw [Nat.add_comm, Nat.add_mul_div_right x y (by omega : 0 < w), Nat.div_eq_of_lt hx]
    omega
  simp only [ComplexImage.atXY, mkImage]
  rw [List.getD_eq_getElem?_getD, List.getElem?_map, List.getElem?_range hidx]
  simp [hmod, hdiv]

@[simp] theorem zeroImage_width (w h : ℕ) : (zeroImage w h).width = w := rfl

@[simp] theorem zeroImage_height (w h : ℕ) : (zeroImage w h).height = h := rfl

theorem zeroImage_atXY (w h x y : ℕ) : (zeroImage w h).atXY x y = 0 := by
  unfold zeroImage mkImage ComplexImage.atXY
  rcases Nat.lt_or_ge (y * w + x) (w * h) with hlt | hge
  · rw [List.getD_eq_getElem?_getD, List.getElem?_map, List.getElem?_range hlt]
    simp
  · rw [List.getD_eq_getElem?_getD, List.getElem?_eq_none (by simpa using hge)]
    simp

/-- Images with equal dimensions, buffers of the invariant length and equal
samples everywhere are equal. -/
theorem ComplexImage.ext_atXY {a b : ComplexImage} (hw : a.width = b.width)
    (hh : a.height = b.height) (hla : a.data.length = a.width * a.height)
    (hlb : b.data.length = b.width * b.height)
    (hs : ∀ x y, x < a.width → y < a.height → a.atXY x y = b.atXY x y) : a = b := by
  obtain ⟨wa, ha, da⟩ := a
  obtain ⟨wb, hb, db⟩ := b
  simp only at hw hh hla hlb hs
  subst hw hh
  congr 1
  apply List.ext_getElem (by rw [hla, hlb])
  intro i h1 h2
  rcases Nat.eq_zero_or_pos wa with hw0 | hw0
  · rw [hw0, Nat.zero_mul] at hla
    omega
  have hi : i = i / wa * wa + i % wa := by
    conv_lhs => rw [← Nat.div_add_mod i wa]
    ring
  have hx : i % wa < wa := Nat.mod_lt _ hw0
  have hy : i / wa < ha := by
    by_contra hcon
    push_neg at hcon
    have : wa * ha ≤ i := by
      calc wa * ha ≤ wa * (i / wa) := Nat.mul_le_mul_left wa hcon
      _ ≤ i := Nat.mul_div_le i wa
    omega
  have := hs (i % wa) (i / wa) hx hy
  simp only [ComplexImage.atXY] at this
  rw [List.getD_eq_getElem?_getD, List.getD_eq_getElem?_getD] at this
  rw [List.getElem?_eq_getElem (by omega), List.getElem?_eq_getElem (by omega)] at this
  simpa [← hi] using this

/-! ## Bit reversal -/

theorem bitRev_lt {k i : ℕ} : bitRev k i < 2 ^ k := by
  induction k generalizing i with
  | zero => simp [bitRev]
  | succ k ih =>
    have := @ih (i / 2)
    simp only [bitRev]
    have : i % 2 * 2 ^ k ≤ 2 ^ k := by
      rcases Nat.mod_two_eq_zero_or_one i with h | h <;> simp [h]
    calc bitRev k (i / 2) + i % 2 * 2 ^ k < 2 ^ k + 2 ^ k := by omega
    _ = 2 ^ (k + 1) := by ring

theorem bitRev_two_mul (k q : ℕ) : bitRev (k + 1) (2 * q) = bitRev k q := by
  simp [bitRev, Nat.mul_div_cancel_left, Nat.mul_mod_right]

theorem bitRev_two_mul_add_one (k q : ℕ) :
    bitRev (k + 1) (2 * q + 1) = bitRev k q + 2 ^ k := by
  have h1 : (2 * q + 1) / 2 = q := by omega
  have h2 : (2 * q + 1) % 2 = 1 := by omega
  simp [bitRev, h1, h2]

theorem bitRev_high_bit (k : ℕ) :
    ∀ a b, a < 2 ^ k → b ≤ 1 → bitRev (k + 1) (a + 2 ^ k * b) = 2 * bitRev k a + b := by
  induction k with
  | zero =>
    intro a b ha hb
    interval_cases a
    interval_cases b <;> simp [bitRev]
  | succ k ih =>
    intro a b ha hb
    have hdiv : (a + 2 ^ (k + 1) * b) / 2 = a / 2 + 2 ^ k * b := by
      have : a + 2 ^ (k + 1) * b = a + 2 * (2 ^ k * b) := by ring
      rw [this, Nat.add_mul_div_left _ _ (by omega : 0 < 2)]
    have hmod : (a + 2 ^ (k + 1) * b) % 2 = a % 2 := by
      have : a + 2 ^ (k + 1) * b = a + (2 ^ k * b) * 2 := by ring
      rw [this, Nat.add_mul_mod_self_right]
    have hihalf : a / 2 < 2 ^ k :=
      Nat.div_lt_of_lt_mul (by rw [← pow_succ']; exact ha)
    show bitRev (k + 1 + 1) (a + 2 ^ (k + 1) * b) = 2 * bitRev (k + 1) a + b
    calc bitRev (k + 1 + 1) (a + 2 ^ (k + 1) * b)
        = bitRev (k + 1) ((a + 2 ^ (k + 1) * b) / 2)
            + (a + 2 ^ (k + 1) * b) % 2 * 2 ^ (k + 1) := rfl
      _ = bitRev (k + 1) (a / 2 + 2 ^ k * b) + a % 2 * 2 ^ (k + 1) := by rw [hdiv, hmod]
      _ = 2 * bitRev k (a / 2) + b + a % 2 * 2 ^ (k + 1) := by rw [ih _ _ hihalf hb]
      _ = 2 * (bitRev k (a / 2) + a % 2 * 2 ^ k) + b := by ring
      _ = 2 * bitRev (k + 1) a + b := rfl

theorem bitRev_bitRev (k : ℕ) : ∀ i, i < 2 ^ k → bitRev k (bitRev k i) = i := by
  induction k with
  | zero =>
    intro i hi
    interval_cases i
    simp [bitRev]
  | succ k ih =>
    intro i hi
    have hstep : bitRev (k + 1) i = bitRev k (i / 2) + 2 ^ k * (i % 2) := by
      show bitRev k (i / 2) + i % 2 * 2 ^ k = _
      ring
    have hihalf : i / 2 < 2 ^ k :=
      Nat.div_lt_of_lt_mul (by rw [← pow_succ']; exact hi)
    rw [hstep, bitRev_high_bit k _ _ bitRev_lt (by omega), ih _ hihalf]
    omega

/-! ## Sum splitting and twiddle identities -/

theorem sum_range_even_odd (m : ℕ) (f : ℕ → ℂ) :
    ∑ j ∈ Finset.range (2 * m), f j
      = (∑ j ∈ Finset.range m, f (2 * j)) + ∑ j ∈ Finset.range m, f (2 * j + 1) := by
  induction m with
  | zero => simp
  | succ m ih =>
    have h2 : 2 * (m + 1) = (2 * m + 1) + 1 := by ring
    rw [h2, Finset.sum_range_succ, Finset.sum_range_succ,
      Finset.sum_range_succ (fun j => f (2 * j)) m,
      Finset.sum_range_succ (fun j => f (2 * j + 1)) m, ih]
    ring

theorem twiddle_sq (d : Direction) (L : ℕ) (hL : 0 < L) :
    twiddle d (2 * L) ^ 2 = twiddle d L := by
  unfold twiddle
  rw [← Complex.exp_nat_mul]
  congr 1
  have : ((2 * L : ℕ) : ℂ) = 2 * (L : ℂ) := by push_cast; ring
  rw [this]
  have hL0 : (L : ℂ) ≠ 0 := Nat.cast_ne_zero.mpr (by omega)
  field_simp
  ring

theorem twiddle_pow_half (d : Direction) (L : ℕ) (hL : 0 < L) :
    twiddle d (2 * L) ^ L = -1 := by
  unfold twiddle
  rw [← Complex.exp_nat_mul]
  have hL0 : (L : ℂ) ≠ 0 := Nat.cast_ne_zero.mpr (by omega)
  have hcast : ((2 * L : ℕ) : ℂ) = 2 * (L : ℂ) := by push_cast; ring
  have harg : (L : ℂ) * ((angleSign d : ℂ) / ((2 * L : ℕ) : ℂ) * Complex.I)
      = (angleSign d / 2 : ℝ) * Complex.I := by
    rw [hcast]
    push_cast
    field_simp
    ring
  rw [harg]
  cases d with
  | Forward =>
    have : ((-(2 * Real.pi) / 2 : ℝ) : ℂ) * Complex.I = -(Real.pi * Complex.I) := by
      push_cast
      ring
    rw [angleSign, this, Complex.exp_neg, Complex.exp_pi_mul_I]
    norm_num
  | Inverse =>
    have : ((2 * Real.pi / 2 : ℝ) : ℂ) * Complex.I = Real.pi * Complex.I := by
      push_cast
      ring
    rw [angleSign, this, Complex.exp_pi_mul_I]

theorem twiddle_pow (d : Direction) (n m : ℕ) :
    twiddle d n ^ m = Complex.exp ((angleSign d * m / n) * Complex.I) := by
  unfold twiddle
  rw [← Complex.exp_nat_mul]
  congr 1
  ring

theorem twiddle_pow_self (d : Direction) (L : ℕ) (hL : 0 < L) :
    twiddle d L ^ L = 1 := by
  unfold twiddle
  rw [← Complex.exp_nat_mul]
  have hL0 : (L : ℂ) ≠ 0 := Nat.cast_ne_zero.mpr (by omega)
  have harg : (L : ℂ) * ((angleSign d : ℂ) / (L : ℂ) * Complex.I)
      = (angleSign d : ℝ) * Complex.I := by
    field_simp
  rw [harg]
  cases d with
  | Forward =>
    have : ((-(2 * Real.pi) : ℝ) : ℂ) * Complex.I = (-1 : ℤ) * (2 * (Real.pi : ℂ) * Complex.I) := by
      push_cast
      ring
    rw [angleSign, this, Complex.exp_int_mul_two_pi_mul_I]
  | Inverse =>
    have : ((2 * Real.pi : ℝ) : ℂ) * Complex.I = (1 : ℤ) * (2 * (Real.pi : ℂ) * Complex.I) := by
      push_cast
      ring
    rw [angleSign, this, Complex.exp_int_mul_two_pi_mul_I]

/-! ## The butterfly cascade computes blockwise DFTs -/

/-- After the passes of lengths `2, …, 2^l`, each aligned block of `2^l`
positions holds the DFT of its bit-reversed pre-pass contents. -/
theorem ctPasses_spec (d : Direction) :
    ∀ (l : ℕ) (u : ℕ → ℂ) (p : ℕ),
      ctPasses d l u p
        = ∑ j ∈ Finset.range (2 ^ l),
            u (p / 2 ^ l * 2 ^ l + bitRev l j) * twiddle d (2 ^ l) ^ (p % 2 ^ l * j) := by
  intro l
  induction l with
  | zero =>
    intro u p
    simp [ctPasses, bitRev]
  | succ l ih =>
    intro u p
    have hL : 0 < 2 ^ l := pow_pos (by norm_num) l
    have h2L : 2 ^ (l + 1) = 2 * 2 ^ l := by rw [pow_succ]; ring
    have hhalf : 2 ^ (l + 1) / 2 = 2 ^ l := by omega
    obtain ⟨q, r, rfl, hr⟩ : ∃ q r, p = 2 * 2 ^ l * q + r ∧ r < 2 * 2 ^ l :=
      ⟨p / (2 * 2 ^ l), p % (2 * 2 ^ l), (Nat.div_add_mod p (2 * 2 ^ l)).symm,
        Nat.mod_lt _ (by omega)⟩
    have hmod2L : (2 * 2 ^ l * q + r) % 2 ^ (l + 1) = r := by
      rw [h2L, Nat.mul_add_mod, Nat.mod_eq_of_lt hr]
    have hdiv2L : (2 * 2 ^ l * q + r) / 2 ^ (l + 1) = q := by
      rw [h2L, Nat.mul_add_div (by omega), Nat.div_eq_of_lt hr]
      omega
    simp only [ctPasses, butterflyPass]
    rw [hhalf, hmod2L, hdiv2L, h2L, sum_range_even_odd]
    by_cases hc : r < 2 ^ l
    · rw [if_pos hc, ih, ih]
      have e1 : (2 * 2 ^ l * q + r) % 2 ^ l = r := by
        rw [show 2 * 2 ^ l * q + r = 2 ^ l * (2 * q) + r by ring, Nat.mul_add_mod,
          Nat.mod_eq_of_lt hc]
      have e2 : (2 * 2 ^ l * q + r) / 2 ^ l = 2 * q := by
        rw [show 2 * 2 ^ l * q + r = 2 ^ l * (2 * q) + r by ring, Nat.mul_add_div hL,
          Nat.div_eq_of_lt hc]
        omega
      have e3 : (2 * 2 ^ l * q + r + 2 ^ l) % 2 ^ l = r := by
        rw [show 2 * 2 ^ l * q + r + 2 ^ l = 2 ^ l * (2 * q + 1) + r by ring, Nat.mul_add_mod,
          Nat.mod_eq_of_lt hc]
      have e4 : (2 * 2 ^ l * q + r + 2 ^ l) / 2 ^ l = 2 * q + 1 := by
        rw [show 2 * 2 ^ l * q + r + 2 ^ l = 2 ^ l * (2 * q + 1) + r by ring, Nat.mul_add_div hL,
          Nat.div_eq_of_lt hc]
      rw [e1, e2, e3, e4]
      have heven : (∑ j ∈ Finset.range (2 ^ l),
            u (q * (2 * 2 ^ l) + bitRev (l + 1) (2 * j)) * twiddle d (2 * 2 ^ l) ^ (r * (2 * j)))
          = ∑ j ∈ Finset.range (2 ^ l),
            u (2 * q * 2 ^ l + bitRev l j) * twiddle d (2 ^ l) ^ (r * j) := by
        refine Finset.sum_congr rfl fun j _ => ?_
        rw [bitRev_two_mul, show q * (2 * 2 ^ l) = 2 * q * 2 ^ l by ring,
          show r * (2 * j) = 2 * (r * j) by ring, pow_mul, twiddle_sq d _ hL]
      have hodd : (∑ j ∈ Finset.range (2 ^ l),
            u (q * (2 * 2 ^ l) + bitRev (l + 1) (2 * j + 1)) *
              twiddle d (2 * 2 ^ l) ^ (r * (2 * j + 1)))
          = twiddle d (2 * 2 ^ l) ^ r * ∑ j ∈ Finset.range (2 ^ l),
            u ((2 * q + 1) * 2 ^ l + bitRev l j) * twiddle d (2 ^ l) ^ (r * j) := by
        rw [Finset.mul_sum]
        refine Finset.sum_congr rfl fun j _ => ?_
        rw [bitRev_two_mul_add_one, show r * (2 * j + 1) = 2 * (r * j) + r by ring, pow_add,
          pow_mul, twiddle_sq d _ hL,
          show q * (2 * 2 ^ l) + (bitRev l j + 2 ^ l) = (2 * q + 1) * 2 ^ l + bitRev l j by ring]
        ring
      rw [heven, hodd]
    · push_neg at hc
      obtain ⟨s, rfl, hs⟩ : ∃ s, r = 2 ^ l + s ∧ s < 2 ^ l := ⟨r - 2 ^ l, by omega, by omega⟩
      rw [if_neg (by omega), ih, ih]
      have e1 : (2 * 2 ^ l * q + (2 ^ l + s)) % 2 ^ l = s := by
        rw [show 2 * 2 ^ l * q + (2 ^ l + s) = 2 ^ l * (2 * q + 1) + s by ring, Nat.mul_add_mod,
          Nat.mod_eq_of_lt hs]
      have e2 : (2 * 2 ^ l * q + (2 ^ l + s)) / 2 ^ l = 2 * q + 1 := by
        rw [show 2 * 2 ^ l * q + (2 ^ l + s) = 2 ^ l * (2 * q + 1) + s by ring,
          Nat.mul_add_div hL, Nat.div_eq_of_lt hs]
      have e0 : 2 * 2 ^ l * q + (2 ^ l + s) - 2 ^ l = 2 ^ l * (2 * q) + s := by ring_nf; omega
      have e3 : (2 ^ l * (2 * q) + s) % 2 ^ l = s := by
        rw [Nat.mul_add_mod, Nat.mod_eq_of_lt hs]
      have e4 : (2 ^ l * (2 * q) + s) / 2 ^ l = 2 * q := by
        rw [Nat.mul_add_div hL, Nat.div_eq_of_lt hs]
        omega
      have e5 : 2 ^ l + s - 2 ^ l = s := by omega
      rw [e0, e1, e2, e3, e4, e5]
      have heven : (∑ j ∈ Finset.range (2 ^ l),
            u (q * (2 * 2 ^ l) + bitRev (l + 1) (2 * j)) *
              twiddle d (2 * 2 ^ l) ^ ((2 ^ l + s) * (2 * j)))
          = ∑ j ∈ Finset.range (2 ^ l),
            u (2 * q * 2 ^ l + bitRev l j) * twiddle d (2 ^ l) ^ (s * j) := by
        refine Finset.sum_congr rfl fun j _ => ?_
        have hneg : ((-1 : ℂ)) ^ (2 * j) = 1 := by
          rw [pow_mul]
          norm_num
        rw [bitRev_two_mul, show q * (2 * 2 ^ l) = 2 * q * 2 ^ l by ring,
          show (2 ^ l + s) * (2 * j) = 2 ^ l * (2 * j) + 2 * (s * j) by ring, pow_add,
          pow_mul (twiddle d (2 * 2 ^ l)) (2 ^ l) (2 * j), twiddle_pow_half d _ hL, hneg,
          one_mul, pow_mul, twiddle_sq d _ hL]
      have hodd : (∑ j ∈ Finset.range (2 ^ l),
            u (q * (2 * 2 ^ l) + bitRev (l + 1) (2 * j + 1)) *
              twiddle d (2 * 2 ^ l) ^ ((2 ^ l + s) * (2 * j + 1)))
          = -(twiddle d (2 * 2 ^ l) ^ s * ∑ j ∈ Finset.range (2 ^ l),
              u ((2 * q + 1) * 2 ^ l + bitRev l j) * twiddle d (2 ^ l) ^ (s * j)) := by
        rw [Finset.mul_sum, ← Finset.sum_neg_distrib]
        refine Finset.sum_congr rfl fun j _ => ?_
        have hneg : ((-1 : ℂ)) ^ (2 * j) = 1 := by
          rw [pow_mul]
          norm_num
        rw [bitRev_two_mul_add_one,
          show (2 ^ l + s) * (2 * j + 1) = 2 ^ l * (2 * j) + 2 ^ l + (2 * (s * j) + s) by ring,
          show q * (2 * 2 ^ l) + (bitRev l j + 2 ^ l) = (2 * q + 1) * 2 ^ l + bitRev l j by ring]
        rw [pow_add, pow_add, pow_add, pow_mul (twiddle d (2 * 2 ^ l)) (2 ^ l) (2 * j),
          twiddle_pow_half d _ hL, hneg, pow_mul, twiddle_sq d _ hL]
        ring
      rw [heven, hodd]
      ring

/-! ## Cooley–Tukey computes the DFT -/

theorem lg_two_pow : ∀ k, lg (2 ^ k) = k := by
  intro k
  induction k with
  | zero => simp [lg]
  | succ k ih =>
    have hpos : 0 < 2 ^ k := pow_pos (by norm_num) k
    have h2 : 2 ^ (k + 1) = 2 ^ k * 2 := pow_succ 2 k
    obtain ⟨m, hm⟩ : ∃ m, 2 ^ (k + 1) = m + 2 := ⟨2 ^ (k + 1) - 2, by omega⟩
    rw [hm]
    have hhalf : (m + 2) / 2 = 2 ^ k := by omega
    simp only [lg, hhalf, ih]

theorem cooleyTukeyFFT_eq_dft (d : Direction) (k : ℕ) (v : ℕ → ℂ) (p : ℕ)
    (hp : p < 2 ^ k) : cooleyTukeyFFT d (2 ^ k) v p = dft d (2 ^ k) v p := by
  unfold cooleyTukeyFFT dft
  rw [lg_two_pow, ctPasses_spec]
  congr 1
  rw [Nat.div_eq_of_lt hp, Nat.mod_eq_of_lt hp]
  refine Finset.sum_congr rfl fun j hj => ?_
  rw [zero_mul, zero_add, bitRev_bitRev k j (Finset.mem_range.mp hj), twiddle_pow]
  congr 2
  push_cast
  ring

theorem fft1D_eq_dft (d : Direction) (n : ℕ) (v : ℕ → ℂ) (p : ℕ) (hp : p < n) :
    fft1D d n v p = dft d n v p := by
  unfold fft1D
  by_cases h1 : n ≤ 1
  · have hn1 : n = 1 := by omega
    have hp0 : p = 0 := by omega
    subst hn1 hp0
    rw [if_pos (by omega)]
    simp [dft, invScale]
    cases d <;> simp [invScale]
  · rw [if_neg h1]
    by_cases h2 : n = 2 ^ lg n
    · rw [if_pos h2]
      obtain ⟨k, rfl⟩ : ∃ k, n = 2 ^ k := ⟨lg n, h2⟩
      exact cooleyTukeyFFT_eq_dft d k v p hp
    · rw [if_neg h2]

theorem dft_congr (d : Direction) (n : ℕ) {f g : ℕ → ℂ} (p : ℕ)
    (h : ∀ j, j < n → f j = g j) : dft d n f p = dft d n g p := by
  unfold dft
  congr 1
  exact Finset.sum_congr rfl fun j hj => by rw [h j (Finset.mem_range.mp hj)]

/-! ## Orthogonality and the 1D round trip -/

theorem exp_geom_sum_eq (n : ℕ) (hn : 0 < n) (p j : ℕ) (hp : p < n) (hj : j < n) :
    ∑ k ∈ Finset.range n,
        Complex.exp (((2 * Real.pi * ((p : ℝ) - (j : ℝ)) / n) * k : ℝ) * Complex.I)
      = if j = p then (n : ℂ) else 0 := by
  have hnR : (n : ℝ) ≠ 0 := Nat.cast_ne_zero.mpr (by omega)
  have hnCC : (n : ℂ) ≠ 0 := Nat.cast_ne_zero.mpr (by omega)
  by_cases hjp : j = p
  · subst hjp
    simp
  · rw [if_neg hjp]
    have hterm : ∀ k : ℕ,
        Complex.exp (((2 * Real.pi * ((p : ℝ) - (j : ℝ)) / n) * k : ℝ) * Complex.I)
          = Complex.exp (((2 * Real.pi * ((p : ℝ) - (j : ℝ)) / n) : ℝ) * Complex.I) ^ k := by
      intro k
      rw [← Complex.exp_nat_mul]
      congr 1
      push_cast
      ring
    have hzn : Complex.exp (((2 * Real.pi * ((p : ℝ) - (j : ℝ)) / n) : ℝ) * Complex.I) ^ n
        = 1 := by
      rw [← Complex.exp_nat_mul]
      have harg : (n : ℂ) * ((((2 * Real.pi * ((p : ℝ) - (j : ℝ)) / n) : ℝ) : ℂ) * Complex.I)
          = (Int.cast ((p : ℤ) - (j : ℤ)) : ℂ) * (2 * (Real.pi : ℂ) * Complex.I) := by
        push_cast
        field_simp
        ring
      rw [harg, Complex.exp_int_mul_two_pi_mul_I]
    have hz1 : Complex.exp (((2 * Real.pi * ((p : ℝ) - (j : ℝ)) / n) : ℝ) * Complex.I) ≠ 1 := by
      intro hone
      rw [Complex.exp_eq_one_iff] at hone
      obtain ⟨m, hm⟩ := hone
      have hmul : ((2 * Real.pi * ((p : ℝ) - (j : ℝ)) / n : ℝ) : ℂ)
          = (m : ℂ) * (2 * (Real.pi : ℂ)) :=
        mul_right_cancel₀ Complex.I_ne_zero (by rw [hm]; ring)
      have hreal : (2 * Real.pi * ((p : ℝ) - (j : ℝ)) / n : ℝ) = (m : ℝ) * (2 * Real.pi) := by
        exact_mod_cast hmul
      have h2pi : (2 * Real.pi) ≠ 0 := ne_of_gt (by positivity)
      have hpij : (p : ℝ) - (j : ℝ) = (m : ℝ) * n := by
        apply mul_left_cancel₀ h2pi
        have hclear : 2 * Real.pi * ((p : ℝ) - (j : ℝ)) = (m : ℝ) * (2 * Real.pi) * n := by
          field_simp at hreal
          linarith [hreal]
        linarith [hclear]
      have hnpos : (0 : ℝ) < n := by exact_mod_cast hn
      have hpr : (p : ℝ) < n := by exact_mod_cast hp
      have hjr : (j : ℝ) < n := by exact_mod_cast hj
      have hp0 : (0 : ℝ) ≤ p := Nat.cast_nonneg p
      have hj0 : (0 : ℝ) ≤ j := Nat.cast_nonneg j
      have hmz : m = 0 := by
        rcases lt_trichotomy m 0 with hm0 | hm0 | hm0
        · have h1 : (m : ℝ) ≤ -1 := by exact_mod_cast Int.le_sub_one_of_lt hm0
          nlinarith [hpij]
        · exact hm0
        · have h1 : (1 : ℝ) ≤ (m : ℝ) := by exact_mod_cast hm0
          nlinarith [hpij]
      rw [hmz] at hpij
      simp at hpij
      have hpj : p = j := by
        have : (p : ℝ) = (j : ℝ) := by linarith [hpij]
        exact_mod_cast this
      exact hjp hpj.symm
    calc ∑ k ∈ Finset.range n,
          Complex.exp (((2 * Real.pi * ((p : ℝ) - (j : ℝ)) / n) * k : ℝ) * Complex.I)
        = ∑ k ∈ Finset.range n,
          Complex.exp (((2 * Real.pi * ((p : ℝ) - (j : ℝ)) / n) : ℝ) * Complex.I) ^ k :=
          Finset.sum_congr rfl fun k _ => hterm k
      _ = (Complex.exp (((2 * Real.pi * ((p : ℝ) - (j : ℝ)) / n) : ℝ) * Complex.I) ^ n - 1) /
            (Complex.exp (((2 * Real.pi * ((p : ℝ) - (j : ℝ)) / n) : ℝ) * Complex.I) - 1) :=
          geom_sum_eq hz1 n
      _ = 0 := by rw [hzn]; simp

theorem dft_roundtrip (n : ℕ) (v : ℕ → ℂ) (p : ℕ) (hp : p < n) :
    dft Direction.Inverse n (dft Direction.Forward n v) p = v p := by
  have hn : 0 < n := by omega
  have hnC : (n : ℂ) ≠ 0 := Nat.cast_ne_zero.mpr (by omega)
  have hstep1 : ∀ k : ℕ,
      (∑ j ∈ Finset.range n,
          v j * Complex.exp (((-(2 * Real.pi) : ℝ) : ℂ) * k * j / n * Complex.I)) *
        Complex.exp (((2 * Real.pi : ℝ) : ℂ) * p * k / n * Complex.I)
      = ∑ j ∈ Finset.range n,
          v j * Complex.exp (((2 * Real.pi * ((p : ℝ) - (j : ℝ)) / n) * k : ℝ) * Complex.I) := by
    intro k
    rw [Finset.sum_mul]
    refine Finset.sum_congr rfl fun j _ => ?_
    rw [mul_assoc, ← Complex.exp_add]
    congr 1
    congr 1
    push_cast
    ring
  have expand : dft Direction.Inverse n (dft Direction.Forward n v) p
      = (1 / (n : ℂ)) * ∑ k ∈ Finset.range n, ∑ j ∈ Finset.range n,
          v j * Complex.exp (((2 * Real.pi * ((p : ℝ) - (j : ℝ)) / n) * k : ℝ) * Complex.I) := by
    unfold dft
    simp only [invScale, angleSign, one_mul]
    congr 1
    exact Finset.sum_congr rfl fun k _ => hstep1 k
  rw [expand, Finset.sum_comm]
  have hinner : ∀ j ∈ Finset.range n,
      (∑ k ∈ Finset.range n,
          v j * Complex.exp (((2 * Real.pi * ((p : ℝ) - (j : ℝ)) / n) * k : ℝ) * Complex.I))
        = if j = p then v j * n else 0 := by
    intro j hj
    rw [← Finset.mul_sum, exp_geom_sum_eq n hn p j hp (Finset.mem_range.mp hj)]
    by_cases hjp : j = p <;> simp [hjp]
  rw [Finset.sum_congr rfl hinner,
    Finset.sum_ite_eq' (Finset.range n) p fun j => v j * (n : ℂ),
    if_pos (Finset.mem_range.mpr hp)]
  field_simp


/-! ## The 2D transform -/

theorem double_sum_swap (a b : ℂ) (m n : ℕ) (f : ℕ → ℕ → ℂ) (g h : ℕ → ℂ) :
    a * ∑ u ∈ Finset.range m, (b * ∑ s ∈ Finset.range n, f u s * h s) * g u
      = b * ∑ s ∈ Finset.range n, (a * ∑ u ∈ Finset.range m, f u s * g u) * h s := by
  simp_rw [Finset.mul_sum, Finset.sum_mul, Finset.mul_sum]
  rw [Finset.sum_comm]
  refine Finset.sum_congr rfl fun s _ => Finset.sum_congr rfl fun u _ => by ring

/-- Row transforms and column transforms commute (both are linear maps acting
on different indices). -/
theorem dft_swap (d1 d2 : Direction) (m n : ℕ) (F : ℕ → ℕ → ℂ) (x t : ℕ) :
    dft d1 m (fun u => dft d2 n (fun s => F u s) t) x
      = dft d2 n (fun s => dft d1 m (fun u => F u s) x) t := by
  unfold dft
  exact double_sum_swap _ _ _ _ _ _ _

@[simp] theorem fft2D_width (img : ComplexImage) (d : Direction) :
    (fft2D img d).width = img.width := rfl

@[simp] theorem fft2D_height (img : ComplexImage) (d : Direction) :
    (fft2D img d).height = img.height := rfl

theorem fft2D_data_length (img : ComplexImage) (d : Direction) :
    (fft2D img d).data.length = img.width * img.height := by
  simp [fft2D]

/-- Pointwise characterization of the separable 2D transform: first the rows,
then the columns, each 1D pass being the DFT. -/
theorem fft2D_atXY (img : ComplexImage) (d : Direction) {x y : ℕ}
    (hx : x < img.width) (hy : y < img.height) :
    (fft2D img d).atXY x y
      = dft d img.height (fun t => dft d img.width (fun u => img.atXY u t) x) y := by
  simp only [fft2D]
  rw [mkImage_atXY _ hx hy, fft1D_eq_dft _ _ _ _ hy]
  refine dft_congr _ _ _ fun t ht => ?_
  rw [mkImage_atXY _ hx ht, fft1D_eq_dft _ _ _ _ hx]

/-- Exact round trip of the in-place 2D transform. -/
theorem fft2D_roundtrip (img : ComplexImage) {x y : ℕ} (hx : x < img.width)
    (hy : y < img.height) :
    (fft2D (fft2D img Direction.Forward) Direction.Inverse).atXY x y = img.atXY x y := by
  have hmid : ∀ t, t < img.height →
      dft Direction.Inverse img.width
          (fun u => (fft2D img Direction.Forward).atXY u t) x
        = dft Direction.Forward img.height
            (fun s => dft Direction.Inverse img.width
              (fun u => dft Direction.Forward img.width (fun v => img.atXY v s) u) x) t := by
    intro t ht
    rw [dft_congr Direction.Inverse img.width x
      (fun u hu => fft2D_atXY img Direction.Forward hu ht)]
    exact dft_swap Direction.Inverse Direction.Forward img.width img.height
      (fun u s => dft Direction.Forward img.width (fun v => img.atXY v s) u) x t
  calc (fft2D (fft2D img Direction.Forward) Direction.Inverse).atXY x y
      = dft Direction.Inverse img.height
          (fun t => dft Direction.Inverse img.width
            (fun u => (fft2D img Direction.Forward).atXY u t) x) y :=
        fft2D_atXY _ _ hx hy
    _ = dft Direction.Inverse img.height
          (fun t => dft Direction.Forward img.height
            (fun s => dft Direction.Inverse img.width
              (fun u => dft Direction.Forward img.width (fun v => img.atXY v s) u) x) t) y :=
        dft_congr _ _ _ hmid
    _ = dft Direction.Inverse img.width
          (fun u => dft Direction.Forward img.width (fun v => img.atXY v y) u) x :=
        dft_roundtrip img.height _ y hy
    _ = img.atXY x y := dft_roundtrip img.width _ x hx

/-! ## Padding-variant lemmas -/

theorem padLoop_pow_eq : ∀ (fuel t s : ℕ), s ≤ t → t - s ≤ fuel →
    PadVariant.padLoop fuel (2 ^ t) (2 ^ s) = 2 ^ t := by
  intro fuel
  induction fuel with
  | zero =>
    intro t s hst hf
    have hts : s = t := by omega
    subst hts
    rfl
  | succ fuel ih =>
    intro t s hst hf
    by_cases hlt : (2 : ℕ) ^ s < 2 ^ t
    · have hstlt : s < t := by
        by_contra hcon
        push_neg at hcon
        have : (2 : ℕ) ^ t ≤ 2 ^ s := Nat.pow_le_pow_right (by omega) hcon
        omega
      show (if (2 : ℕ) ^ s < 2 ^ t then PadVariant.padLoop fuel (2 ^ t) (2 * 2 ^ s)
        else 2 ^ s) = 2 ^ t
      rw [if_pos hlt, show 2 * 2 ^ s = 2 ^ (s + 1) by rw [pow_succ]; ring]
      exact ih t (s + 1) (by omega) (by omega)
    · have hle : (2 : ℕ) ^ t ≤ 2 ^ s := by omega
      have hts : s = t := by
        have h1 : t ≤ s := by
          by_contra hcon
          push_neg at hcon
          have : (2 : ℕ) ^ s < 2 ^ t := Nat.pow_lt_pow_right (by omega) hcon
          omega
        omega
      subst hts
      show (if (2 : ℕ) ^ s < 2 ^ s then PadVariant.padLoop fuel (2 ^ s) (2 * 2 ^ s)
        else 2 ^ s) = 2 ^ s
      rw [if_neg (by omega)]

theorem padDim_pow (a : ℕ) : PadVariant.padDim (2 ^ a) = 2 ^ a := by
  unfold PadVariant.padDim
  have h1 : (1 : ℕ) = 2 ^ 0 := rfl
  rw [h1]
  exact padLoop_pow_eq (2 ^ a) a 0 (by omega)
    (by have := Nat.lt_two_pow a; omega)

theorem padToPowerOfTwo_of_pow {img : ComplexImage} {a b : ℕ} (ha : img.width = 2 ^ a)
    (hb : img.height = 2 ^ b) : PadVariant.padToPowerOfTwo img = img := by
  unfold PadVariant.padToPowerOfTwo
  rw [if_pos ⟨by rw [ha, padDim_pow], by rw [hb, padDim_pow]⟩]

theorem PadVariant.transform2D_forward (img : ComplexImage) :
    PadVariant.transform2D img Direction.Forward
      = fft2D (PadVariant.padToPowerOfTwo img) Direction.Forward := by
  simp [PadVariant.transform2D]

theorem PadVariant.transform2D_inverse (img : ComplexImage) :
    PadVariant.transform2D img Direction.Inverse
      = PadVariant.cropToOriginalSize
          (fft2D (PadVariant.padToPowerOfTwo img) Direction.Inverse)
          img.width img.height := by
  simp [PadVariant.transform2D]

@[simp] theorem crop_width (img : ComplexImage) (w h : ℕ) :
    (PadVariant.cropToOriginalSize img w h).width = w := rfl

@[simp] theorem crop_height (img : ComplexImage) (w h : ℕ) :
    (PadVariant.cropToOriginalSize img w h).height = h := rfl

theorem crop_atXY (img : ComplexImage) {w h x y : ℕ} (hx : x < w) (hy : y < h) :
    (PadVariant.cropToOriginalSize img w h).atXY x y = img.atXY x y :=
  mkImage_atXY _ hx hy

theorem transform2D_of_pos {img : ComplexImage} (hw : 0 < img.width)
    (hh : 0 < img.height) (d : Direction) : transform2D img d = fft2D img d := by
  unfold transform2D
  rw [if_neg (by rintro (h | h) <;> omega)]

/-! ## Claim C1 -/

/-- C1 (counterexample): for the padding `transform2D` of
Source/FourierTransform.cpp, the inverse-of-forward round trip of a
real-valued 3×1 image yields a 4×1 image, not a 3×1 one: the claim's
"same width and height as I" fails at this input even though every sample
of the input has zero imaginary part. -/
theorem C1_counterexample :
    (∀ x y, x < 3 → y < 1 →
      ((⟨3, 1, [((1 : ℝ) : ℂ), ((2 : ℝ) : ℂ), ((3 : ℝ) : ℂ)]⟩ : ComplexImage).atXY x y).im
        = 0) ∧
    (⟨3, 1, [((1 : ℝ) : ℂ), ((2 : ℝ) : ℂ), ((3 : ℝ) : ℂ)]⟩ : ComplexImage).width = 3 ∧
    (PadVariant.transform2D
      (PadVariant.transform2D
        (⟨3, 1, [((1 : ℝ) : ℂ), ((2 : ℝ) : ℂ), ((3 : ℝ) : ℂ)]⟩ : ComplexImage)
        Direction.Forward)
      Direction.Inverse).width = 4 := by
  refine ⟨?_, rfl, rfl⟩
  intro x y hx hy
  interval_cases y
  interval_cases x <;> simp [ComplexImage.atXY]

/-- C1 (amended): the round trip `inverse(forward(I))` reproduces `I`
exactly (so with error below `1e-6`) and preserves the dimensions, (a) for
the padding `transform2D` of Source/FourierTransform.cpp whenever both
dimensions are powers of two, and (b) for the size-preserving `transform2D`
of the RgbComplexImage.cpp revision whenever both dimensions are positive
(a zero-area image collapses to the 0×0 image there). -/
theorem C1_round_trip :
    (∀ (I : ComplexImage) (a b : ℕ), I.width = 2 ^ a → I.height = 2 ^ b →
      (∀ x y, x < I.width → y < I.height → (I.atXY x y).im = 0) →
      (PadVariant.transform2D (PadVariant.transform2D I Direction.Forward)
          Direction.Inverse).width = I.width ∧
      (PadVariant.transform2D (PadVariant.transform2D I Direction.Forward)
          Direction.Inverse).height = I.height ∧
      (∀ x y, x < I.width → y < I.height →
        Complex.abs ((PadVariant.transform2D (PadVariant.transform2D I Direction.Forward)
            Direction.Inverse).atXY x y - I.atXY x y) < 1 / 1000000)) ∧
    (∀ I : ComplexImage, 0 < I.width → 0 < I.height →
      (∀ x y, x < I.width → y < I.height → (I.atXY x y).im = 0) →
      (transform2D (transform2D I Direction.Forward) Direction.Inverse).width = I.width ∧
      (transform2D (transform2D I Direction.Forward) Direction.Inverse).height = I.height ∧
      (∀ x y, x < I.width → y < I.height →
        Complex.abs ((transform2D (transform2D I Direction.Forward)
            Direction.Inverse).atXY x y - I.atXY x y) < 1 / 1000000)) := by
  constructor
  · intro I a b ha hb _
    have hpadI : PadVariant.padToPowerOfTwo I = I := padToPowerOfTwo_of_pow ha hb
    have hfwd : PadVariant.transform2D I Direction.Forward = fft2D I Direction.Forward := by
      rw [PadVariant.transform2D_forward, hpadI]
    have hpadF : PadVariant.padToPowerOfTwo (fft2D I Direction.Forward)
        = fft2D I Direction.Forward :=
      @padToPowerOfTwo_of_pow (fft2D I Direction.Forward) a b (by simpa using ha)
        (by simpa using hb)
    have hinv : PadVariant.transform2D (PadVariant.transform2D I Direction.Forward)
        Direction.Inverse
        = PadVariant.cropToOriginalSize
            (fft2D (fft2D I Direction.Forward) Direction.Inverse) I.width I.height := by
      rw [hfwd, PadVariant.transform2D_inverse, hpadF, fft2D_width, fft2D_height]
    refine ⟨by rw [hinv]; rfl, by rw [hinv]; rfl, ?_⟩
    intro x y hx hy
    rw [hinv, crop_atXY _ hx hy, fft2D_roundtrip I hx hy, sub_self]
    simp only [map_zero]
    norm_num
  · intro I hw hh _
    have hfwd : transform2D I Direction.Forward = fft2D I Direction.Forward :=
      transform2D_of_pos hw hh _
    have hinv : transform2D (transform2D I Direction.Forward) Direction.Inverse
        = fft2D (fft2D I Direction.Forward) Direction.Inverse := by
      rw [hfwd]
      exact transform2D_of_pos (by simpa using hw) (by simpa using hh) _
    refine ⟨by rw [hinv]; rfl, by rw [hinv]; rfl, ?_⟩
    intro x y hx hy
    rw [hinv, fft2D_roundtrip I hx hy, sub_self]
    simp only [map_zero]
    norm_num

/-- C1 (witness): the amended round-trip theorem applied to the concrete
real-valued 1×1 image `[5]` (both dimensions are `2^0`). -/
theorem C1_witness :
    ((PadVariant.transform2D
        (PadVariant.transform2D (⟨1, 1, [((5 : ℝ) : ℂ)]⟩ : ComplexImage) Direction.Forward)
        Direction.Inverse).width = (⟨1, 1, [((5 : ℝ) : ℂ)]⟩ : ComplexImage).width ∧
      (PadVariant.transform2D
        (PadVariant.transform2D (⟨1, 1, [((5 : ℝ) : ℂ)]⟩ : ComplexImage) Direction.Forward)
        Direction.Inverse).height = (⟨1, 1, [((5 : ℝ) : ℂ)]⟩ : ComplexImage).height ∧
      (∀ x y, x < (⟨1, 1, [((5 : ℝ) : ℂ)]⟩ : ComplexImage).width →
        y < (⟨1, 1, [((5 : ℝ) : ℂ)]⟩ : ComplexImage).height →
        Complex.abs ((PadVariant.transform2D
            (PadVariant.transform2D (⟨1, 1, [((5 : ℝ) : ℂ)]⟩ : ComplexImage)
              Direction.Forward) Direction.Inverse).atXY x y -
          (⟨1, 1, [((5 : ℝ) : ℂ)]⟩ : ComplexImage).atXY x y) < 1 / 1000000)) ∧
    ((transform2D
        (transform2D (⟨1, 1, [((5 : ℝ) : ℂ)]⟩ : ComplexImage) Direction.Forward)
        Direction.Inverse).width = (⟨1, 1, [((5 : ℝ) : ℂ)]⟩ : ComplexImage).width ∧
      (transform2D
        (transform2D (⟨1, 1, [((5 : ℝ) : ℂ)]⟩ : ComplexImage) Direction.Forward)
        Direction.Inverse).height = (⟨1, 1, [((5 : ℝ) : ℂ)]⟩ : ComplexImage).height ∧
      (∀ x y, x < (⟨1, 1, [((5 : ℝ) : ℂ)]⟩ : ComplexImage).width →
        y < (⟨1, 1, [((5 : ℝ) : ℂ)]⟩ : ComplexImage).height →
        Complex.abs ((transform2D
            (transform2D (⟨1, 1, [((5 : ℝ) : ℂ)]⟩ : ComplexImage) Direction.Forward)
            Direction.Inverse).atXY x y -
          (⟨1, 1, [((5 : ℝ) : ℂ)]⟩ : ComplexImage).atXY x y) < 1 / 1000000)) := by
  have him : ∀ x y, x < (⟨1, 1, [((5 : ℝ) : ℂ)]⟩ : ComplexImage).width →
      y < (⟨1, 1, [((5 : ℝ) : ℂ)]⟩ : ComplexImage).height →
      ((⟨1, 1, [((5 : ℝ) : ℂ)]⟩ : ComplexImage).atXY x y).im = 0 := by
    intro x y hx hy
    have hx0 : x = 0 := by
      simpa using hx
    have hy0 : y = 0 := by
      simpa using hy
    subst hx0 hy0
    simp [ComplexImage.atXY]
  exact ⟨C1_round_trip.1 ⟨1, 1, [((5 : ℝ) : ℂ)]⟩ 0 0 rfl rfl him,
    C1_round_trip.2 ⟨1, 1, [((5 : ℝ) : ℂ)]⟩ (by norm_num) (by norm_num) him⟩

/-! ## Claims C2 and C5 -/

/-- C2: the padding `transform2D` of Source/FourierTransform.cpp does not
preserve dimensions on the forward direction for non-power-of-two inputs
(a 3×3 image becomes 4×4), contradicting the repository's own
`PreservesImageDimensions` test; the RgbComplexImage.cpp revision collapses
a degenerate 0×5 image to 0×0, changing its height as well. -/
theorem C2_dims_divergence :
    (zeroImage 3 3).width = 3 ∧ (zeroImage 3 3).height = 3 ∧
    (PadVariant.transform2D (zeroImage 3 3) Direction.Forward).width = 4 ∧
    (PadVariant.transform2D (zeroImage 3 3) Direction.Forward).height = 4 ∧
    (zeroImage 0 5).height = 5 ∧
    (transform2D (zeroImage 0 5) Direction.Forward).height = 0 := by
  refine ⟨rfl, rfl, rfl, rfl, rfl, rfl⟩

/-- C5: on a zero-area (0×0) input with direction Forward, the padding
`transform2D` of Source/FourierTransform.cpp pads up to 1×1 and returns a
positive-area image, contradicting the repository's own `HandlesEmptyImage`
test; the RgbComplexImage.cpp revision returns the 0×0 image as the claim
states. -/
theorem C5_zero_area_divergence :
    (PadVariant.transform2D (zeroImage 0 0) Direction.Forward).width = 1 ∧
    (PadVariant.transform2D (zeroImage 0 0) Direction.Forward).height = 1 ∧
    (transform2D (zeroImage 0 0) Direction.Forward).width = 0 ∧
    (transform2D (zeroImage 0 0) Direction.Forward).height = 0 := by
  refine ⟨rfl, rfl, rfl, rfl⟩

/-! ## Claim C6: fftShift -/

@[simp] theorem fftShift_width (img : ComplexImage) : (fftShift img).width = img.width := rfl

@[simp] theorem fftShift_height (img : ComplexImage) : (fftShift img).height = img.height := rfl

theorem fftShift_data_length (img : ComplexImage) :
    (fftShift img).data.length = img.width * img.height := by
  simp [fftShift]

theorem fftShift_atXY (img : ComplexImage) {x y : ℕ} (hx : x < img.width)
    (hy : y < img.height) :
    (fftShift img).atXY x y
      = if x < 2 * (img.width / 2) ∧ y < 2 * (img.height / 2) then
          img.atXY (if x < img.width / 2 then x + img.width / 2 else x - img.width / 2)
            (if y < img.height / 2 then y + img.height / 2 else y - img.height / 2)
        else img.atXY x y := by
  simp only [fftShift]
  rw [mkImage_atXY _ hx hy]

theorem sigma_invol (m x : ℕ) (hx : x < 2 * m) :
    (if (if x < m then x + m else x - m) < m then (if x < m then x + m else x - m) + m
      else (if x < m then x + m else x - m) - m) = x := by
  by_cases h : x < m
  · rw [if_pos h, if_neg (by omega)]
    omega
  · rw [if_neg h, if_pos (by omega)]
    omega

/-- C6: for even-dimensioned images with the `size = W*H` buffer invariant,
`fftShift` is an involution, and `ifftShift` performs exactly the same
quadrant swap as `fftShift` (it literally calls it). -/
theorem C6_shift_involution :
    (∀ img : ComplexImage, img.width % 2 = 0 → img.height % 2 = 0 →
      img.data.length = img.width * img.height → fftShift (fftShift img) = img) ∧
    (∀ img : ComplexImage, ifftShift img = fftShift img) := by
  refine ⟨?_, fun _ => rfl⟩
  intro img hw hh hlen
  have hW : 2 * (img.width / 2) = img.width := by omega
  have hH : 2 * (img.height / 2) = img.height := by omega
  refine ComplexImage.ext_atXY ?_ ?_ ?_ ?_ ?_
  · rfl
  · rfl
  · exact fftShift_data_length _
  · exact hlen
  · intro x y hx hy
    simp only [fftShift_width, fftShift_height] at hx hy
    rw [fftShift_atXY (fftShift img) hx hy]
    simp only [fftShift_width, fftShift_height]
    rw [if_pos ⟨by omega, by omega⟩]
    rw [fftShift_atXY img (by split_ifs <;> omega) (by split_ifs <;> omega)]
    rw [if_pos ⟨by split_ifs <;> omega, by split_ifs <;> omega⟩]
    rw [sigma_invol (img.width / 2) x (by omega), sigma_invol (img.height / 2) y (by omega)]

/-- C6 (witness): the involution and the `ifftShift` agreement at the
concrete 2×2 image `[1, 2, 3, 4]`. -/
theorem C6_witness :
    fftShift (fftShift (⟨2, 2, [((1 : ℝ) : ℂ), ((2 : ℝ) : ℂ), ((3 : ℝ) : ℂ),
        ((4 : ℝ) : ℂ)]⟩ : ComplexImage))
      = (⟨2, 2, [((1 : ℝ) : ℂ), ((2 : ℝ) : ℂ), ((3 : ℝ) : ℂ), ((4 : ℝ) : ℂ)]⟩ : ComplexImage) ∧
    ifftShift (⟨2, 2, [((1 : ℝ) : ℂ), ((2 : ℝ) : ℂ), ((3 : ℝ) : ℂ),
        ((4 : ℝ) : ℂ)]⟩ : ComplexImage)
      = fftShift (⟨2, 2, [((1 : ℝ) : ℂ), ((2 : ℝ) : ℂ), ((3 : ℝ) : ℂ),
          ((4 : ℝ) : ℂ)]⟩ : ComplexImage) :=
  ⟨C6_shift_involution.1 _ rfl rfl rfl, C6_shift_involution.2 _⟩

/-! ## Claim C9: DC concentration -/

theorem dft_const_forward (n : ℕ) (c : ℂ) (k : ℕ) (hn : 0 < n) (hk : k < n) :
    dft Direction.Forward n (fun _ => c) k = if k = 0 then (n : ℂ) * c else 0 := by
  unfold dft
  simp only [invScale, angleSign, one_mul]
  by_cases hk0 : k = 0
  · subst hk0
    rw [if_pos rfl]
    have hone : ∀ j ∈ Finset.range n,
        c * Complex.exp (((-(2 * Real.pi) : ℝ) : ℂ) * (0 : ℕ) * j / n * Complex.I) = c := by
      intro j _
      simp
    rw [Finset.sum_congr rfl hone, Finset.sum_const, Finset.card_range, nsmul_eq_mul]
  · rw [if_neg hk0]
    have hterm : ∀ j ∈ Finset.range n,
        c * Complex.exp (((-(2 * Real.pi) : ℝ) : ℂ) * k * j / n * Complex.I)
          = c * Complex.exp
              (((2 * Real.pi * (((0 : ℕ) : ℝ) - (k : ℝ)) / n) * j : ℝ) * Complex.I) := by
      intro j _
      congr 2
      push_cast
      ring
    rw [Finset.sum_congr rfl hterm, ← Finset.mul_sum,
      exp_geom_sum_eq n hn 0 k hn hk, if_neg hk0, mul_zero]

theorem dft_zero_fun (d : Direction) (n k : ℕ) : dft d n (fun _ => 0) k = 0 := by
  simp [dft]

/-- The forward 2D transform of a spatially constant image: everything at
`(0,0)`, zero elsewhere. -/
theorem fft2D_const_atXY (img : ComplexImage) (c : ℂ) (hw : 0 < img.width)
    (hh : 0 < img.height)
    (hconst : ∀ x y, x < img.width → y < img.height → img.atXY x y = c)
    {x y : ℕ} (hx : x < img.width) (hy : y < img.height) :
    (fft2D img Direction.Forward).atXY x y
      = if x = 0 ∧ y = 0 then ((img.width : ℂ) * img.height) * c else 0 := by
  rw [fft2D_atXY _ _ hx hy]
  have hrow : ∀ t, t < img.height →
      dft Direction.Forward img.width (fun u => img.atXY u t) x
        = if x = 0 then (img.width : ℂ) * c else 0 := by
    intro t ht
    rw [dft_congr _ _ _ (fun u hu => hconst u t hu ht)]
    exact dft_const_forward img.width c x hw hx
  rw [dft_congr _ _ _ hrow]
  by_cases hx0 : x = 0
  · subst hx0
    have hfun : (fun _ : ℕ => if (0 : ℕ) = 0 then (img.width : ℂ) * c else 0)
        = fun _ : ℕ => (img.width : ℂ) * c := funext fun _ => if_pos rfl
    rw [hfun, dft_const_forward img.height ((img.width : ℂ) * c) y hh hy]
    by_cases hy0 : y = 0
    · subst hy0
      rw [if_pos rfl, if_pos ⟨rfl, rfl⟩]
      ring
    · rw [if_neg hy0, if_neg (by tauto)]
  · have hfun : (fun _ : ℕ => if x = 0 then (img.width : ℂ) * c else 0)
        = fun _ : ℕ => (0 : ℂ) := funext fun _ => if_neg hx0
    rw [hfun, dft_zero_fun, if_neg (by tauto)]

/-- C9 (counterexample): for the spatially constant 2×1 image of ones, the
forward transform concentrates everything at `(0,0)`, and `fftShift` (whose
swap loops are empty because `height/2 = 0`) leaves it there: the
coefficient at the geometric center `(1, 0) = (2/2, 1/2)` is `0` while the
one at `(0,0)` is `2`, so the sole nonzero coefficient does not sit at the
center. -/
theorem C9_counterexample :
    (2 : ℕ) / 2 = 1 ∧ (1 : ℕ) / 2 = 0 ∧
    (fftShift (transform2D (⟨2, 1, [((1 : ℝ) : ℂ), ((1 : ℝ) : ℂ)]⟩ : ComplexImage)
        Direction.Forward)).atXY 1 0 = 0 ∧
    (fftShift (transform2D (⟨2, 1, [((1 : ℝ) : ℂ), ((1 : ℝ) : ℂ)]⟩ : ComplexImage)
        Direction.Forward)).atXY 0 0 = 2 := by
  have hconst : ∀ x y, x < (2 : ℕ) → y < (1 : ℕ) →
      (⟨2, 1, [((1 : ℝ) : ℂ), ((1 : ℝ) : ℂ)]⟩ : ComplexImage).atXY x y = ((1 : ℝ) : ℂ) := by
    intro x y hx hy
    interval_cases y
    interval_cases x <;> rfl
  have htr : transform2D (⟨2, 1, [((1 : ℝ) : ℂ), ((1 : ℝ) : ℂ)]⟩ : ComplexImage)
      Direction.Forward
      = fft2D (⟨2, 1, [((1 : ℝ) : ℂ), ((1 : ℝ) : ℂ)]⟩ : ComplexImage) Direction.Forward :=
    transform2D_of_pos (by norm_num) (by norm_num) _
  refine ⟨rfl, rfl, ?_, ?_⟩
  · rw [htr, fftShift_atXY _ (by norm_num) (by norm_num)]
    rw [if_neg (by simp)]
    rw [fft2D_const_atXY _ ((1 : ℝ) : ℂ) (by norm_num) (by norm_num) hconst
      (by norm_num) (by norm_num)]
    rw [if_neg (by simp)]
  · rw [htr, fftShift_atXY _ (by norm_num) (by norm_num)]
    rw [if_neg (by simp)]
    rw [fft2D_const_atXY _ ((1 : ℝ) : ℂ) (by norm_num) (by norm_num) hconst
      (by norm_num) (by norm_num)]
    rw [if_pos ⟨rfl, rfl⟩]
    push_cast
    ring

/-- C9 (amended): for every spatially constant image with positive
dimensions, the forward transform places the whole energy `W*H*c` at `(0,0)`
and is zero at every other coordinate; when both dimensions are at least 2,
applying `fftShift` moves the sole nonzero coefficient to the geometric
center `(W/2, H/2)` (for a dimension equal to 1 the swap loops are empty and
the coefficient stays in the corner). -/
theorem C9_dc_concentration :
    (∀ (img : ComplexImage) (c : ℂ), 0 < img.width → 0 < img.height →
      (∀ x y, x < img.width → y < img.height → img.atXY x y = c) →
      ((transform2D img Direction.Forward).atXY 0 0 = ((img.width : ℂ) * img.height) * c ∧
        ∀ x y, x < img.width → y < img.height → ¬(x = 0 ∧ y = 0) →
          (transform2D img Direction.Forward).atXY x y = 0)) ∧
    (∀ (img : ComplexImage) (c : ℂ), 2 ≤ img.width → 2 ≤ img.height →
      (∀ x y, x < img.width → y < img.height → img.atXY x y = c) →
      ((fftShift (transform2D img Direction.Forward)).atXY (img.width / 2) (img.height / 2)
          = ((img.width : ℂ) * img.height) * c ∧
        ∀ x y, x < img.width → y < img.height →
          ¬(x = img.width / 2 ∧ y = img.height / 2) →
          (fftShift (transform2D img Direction.Forward)).atXY x y = 0)) := by
  constructor
  · intro img c hw hh hconst
    rw [transform2D_of_pos hw hh]
    constructor
    · rw [fft2D_const_atXY img c hw hh hconst hw hh, if_pos ⟨rfl, rfl⟩]
    · intro x y hx hy hne
      rw [fft2D_const_atXY img c hw hh hconst hx hy, if_neg hne]
  · intro img c hw hh hconst
    have hw0 : 0 < img.width := by omega
    have hh0 : 0 < img.height := by omega
    rw [transform2D_of_pos hw0 hh0]
    constructor
    · rw [fftShift_atXY _ (by simp only [fft2D_width]; omega)
        (by simp only [fft2D_height]; omega)]
      simp only [fft2D_width, fft2D_height]
      rw [if_pos ⟨by omega, by omega⟩, if_neg (by omega), if_neg (by omega)]
      rw [fft2D_const_atXY img c hw0 hh0 hconst (by omega) (by omega)]
      rw [if_pos ⟨by omega, by omega⟩]
    · intro x y hx hy hne
      rw [fftShift_atXY _ (by simpa using hx) (by simpa using hy)]
      simp only [fft2D_width, fft2D_height]
      by_cases hin : x < 2 * (img.width / 2) ∧ y < 2 * (img.height / 2)
      · rw [if_pos hin]
        rw [fft2D_const_atXY img c hw0 hh0 hconst (by split_ifs <;> omega)
          (by split_ifs <;> omega)]
        have hnotc : ¬((if x < img.width / 2 then x + img.width / 2
              else x - img.width / 2) = 0 ∧
            (if y < img.height / 2 then y + img.height / 2
              else y - img.height / 2) = 0) := by
          intro hcon
          obtain ⟨hcx, hcy⟩ := hcon
          have hxx : x = img.width / 2 := by
            by_cases hxlo : x < img.width / 2
            · rw [if_pos hxlo] at hcx
              omega
            · rw [if_neg hxlo] at hcx
              omega
          have hyy : y = img.height / 2 := by
            by_cases hylo : y < img.height / 2
            · rw [if_pos hylo] at hcy
              omega
            · rw [if_neg hylo] at hcy
              omega
          exact hne ⟨hxx, hyy⟩
        rw [if_neg hnotc]
      · rw [if_neg hin]
        rw [fft2D_const_atXY img c hw0 hh0 hconst hx hy]
        have hnotc : ¬(x = 0 ∧ y = 0) := by
          intro hcon
          obtain ⟨hcx, hcy⟩ := hcon
          subst hcx
          subst hcy
          push_neg at hin
          omega
        rw [if_neg hnotc]

/-- C9 (witness): both parts of the amended DC-concentration theorem at the
concrete constant 2×2 image of ones. -/
theorem C9_witness :
    ((transform2D (⟨2, 2, [((1 : ℝ) : ℂ), ((1 : ℝ) : ℂ), ((1 : ℝ) : ℂ), ((1 : ℝ) : ℂ)]⟩ :
          ComplexImage) Direction.Forward).atXY 0 0
        = (((2 : ℕ) : ℂ) * ((2 : ℕ) : ℂ)) * ((1 : ℝ) : ℂ) ∧
      ∀ x y, x < 2 → y < 2 → ¬(x = 0 ∧ y = 0) →
        (transform2D (⟨2, 2, [((1 : ℝ) : ℂ), ((1 : ℝ) : ℂ), ((1 : ℝ) : ℂ), ((1 : ℝ) : ℂ)]⟩ :
          ComplexImage) Direction.Forward).atXY x y = 0) ∧
    ((fftShift (transform2D (⟨2, 2, [((1 : ℝ) : ℂ), ((1 : ℝ) : ℂ), ((1 : ℝ) : ℂ),
          ((1 : ℝ) : ℂ)]⟩ : ComplexImage) Direction.Forward)).atXY 1 1
        = (((2 : ℕ) : ℂ) * ((2 : ℕ) : ℂ)) * ((1 : ℝ) : ℂ) ∧
      ∀ x y, x < 2 → y < 2 → ¬(x = 1 ∧ y = 1) →
        (fftShift (transform2D (⟨2, 2, [((1 : ℝ) : ℂ), ((1 : ℝ) : ℂ), ((1 : ℝ) : ℂ),
          ((1 : ℝ) : ℂ)]⟩ : ComplexImage) Direction.Forward)).atXY x y = 0) := by
  have hconst : ∀ x y, x < (2 : ℕ) → y < (2 : ℕ) →
      (⟨2, 2, [((1 : ℝ) : ℂ), ((1 : ℝ) : ℂ), ((1 : ℝ) : ℂ), ((1 : ℝ) : ℂ)]⟩ :
        ComplexImage).atXY x y = ((1 : ℝ) : ℂ) := by
    intro x y hx hy
    interval_cases x <;> interval_cases y <;> rfl
  exact ⟨C9_dc_concentration.1 _ ((1 : ℝ) : ℂ) (by norm_num) (by norm_num) hconst,
    C9_dc_concentration.2 _ ((1 : ℝ) : ℂ) (by norm_num) (by norm_num) hconst⟩

/-! ## Claim C10: normalize guard -/

/-- C10: `normalize` leaves the image unchanged whenever the maximum sample
magnitude is at most machine epsilon (in particular for all-zero or
zero-area images, whose maximum magnitude is 0), and in every other case it
divides by the maximum magnitude, which is then strictly positive — the
division is guarded and can never be a division by zero. -/
theorem C10_normalize_guard :
    (∀ img : ComplexImage, maxMagnitude img ≤ machineEps → img.normalize = img) ∧
    (∀ img : ComplexImage, img.normalize = img ∨
      (machineEps < maxMagnitude img ∧ 0 < maxMagnitude img ∧
        img.normalize = ⟨img.width, img.height,
          img.data.map fun c => c / (maxMagnitude img : ℂ)⟩)) := by
  have heps : (0 : ℝ) < machineEps := by
    unfold machineEps
    positivity
  constructor
  · intro img h
    unfold ComplexImage.normalize
    rw [if_pos h]
  · intro img
    by_cases h : maxMagnitude img ≤ machineEps
    · left
      unfold ComplexImage.normalize
      rw [if_pos h]
    · right
      push_neg at h
      refine ⟨h, lt_trans heps h, ?_⟩
      unfold ComplexImage.normalize
      rw [if_neg (by push_neg; exact h)]

/-- C10 (witness): the guard theorem applied to the all-zero 1×1 image,
whose maximum magnitude is 0 ≤ machine epsilon. -/
theorem C10_witness : (zeroImage 1 1).normalize = zeroImage 1 1 := by
  apply C10_normalize_guard.1
  have hmax : maxMagnitude (zeroImage 1 1) = 0 := by
    simp [maxMagnitude, zeroImage, mkImage]
  rw [hmax]
  unfold machineEps
  positivity

/-! ## Row-major index arithmetic -/

theorem rowmajor_lt {w h x y : ℕ} (hx : x < w) (hy : y < h) : y * w + x < w * h := by
  have h1 : y * w + x < y * w + w := by omega
  have h2 : y * w + w = (y + 1) * w := by ring
  have h3 : (y + 1) * w ≤ h * w := Nat.mul_le_mul_right w hy
  have h4 : h * w = w * h := Nat.mul_comm h w
  omega

theorem rowmajor_mod {w x : ℕ} (y : ℕ) (hx : x < w) : (y * w + x) % w = x := by
  rw [Nat.add_comm, Nat.add_mul_mod_self_right, Nat.mod_eq_of_lt hx]

theorem rowmajor_div {w x : ℕ} (y : ℕ) (hx : x < w) : (y * w + x) / w = y := by
  rw [Nat.add_comm, Nat.add_mul_div_right x y (by omega : 0 < w), Nat.div_eq_of_lt hx]
  omega

theorem rowmajor_inj {w x1 y1 x2 y2 : ℕ} (h1 : x1 < w) (h2 : x2 < w)
    (he : y1 * w + x1 = y2 * w + x2) : x1 = x2 ∧ y1 = y2 := by
  constructor
  · rw [← rowmajor_mod y1 h1, he, rowmajor_mod y2 h2]
  · rw [← rowmajor_div y1 h1, he, rowmajor_div y2 h2]

/-! ## Claim C3: top-K selection -/

theorem magTuples_length (img : ComplexImage) :
    (magTuples img).length = img.width * img.height := by
  simp [magTuples]

theorem magTuples_mem_prop {img : ComplexImage} {t : ℝ × ℕ × ℕ} (ht : t ∈ magTuples img) :
    t.1 = Complex.abs (img.atXY t.2.1 t.2.2) ∧ t.2.1 < img.width ∧ t.2.2 < img.height := by
  simp only [magTuples, List.mem_map, List.mem_range] at ht
  obtain ⟨i, hi, rfl⟩ := ht
  have hw : 0 < img.width := by
    rcases Nat.eq_zero_or_pos img.width with h0 | h0
    · rw [h0, Nat.zero_mul] at hi
      omega
    · exact h0
  exact ⟨rfl, Nat.mod_lt _ hw, Nat.div_lt_of_lt_mul hi⟩

theorem magTuples_nodup (img : ComplexImage) : (magTuples img).Nodup := by
  unfold magTuples
  refine List.Nodup.map_on ?_ (List.nodup_range _)
  intro i hi j hj he
  simp only [List.mem_range] at hi hj
  have h2 : i % img.width = j % img.width :=
    congrArg (fun t : ℝ × ℕ × ℕ => t.2.1) he
  have h3 : i / img.width = j / img.width :=
    congrArg (fun t : ℝ × ℕ × ℕ => t.2.2) he
  have he1 := Nat.div_add_mod i img.width
  have he2 := Nat.div_add_mod j img.width
  rw [h2, h3] at he1
  omega

theorem getTop_mem_bounds {fd : ComplexImage} {k : ℕ} :
    ∀ c ∈ getTopFrequencyIndices fd k, c.1 < fd.width ∧ c.2 < fd.height := by
  intro c hc
  unfold getTopFrequencyIndices at hc
  rw [List.mem_map] at hc
  obtain ⟨t, ht, rfl⟩ := hc
  have hp := magTuples_mem_prop
    ((List.perm_insertionSort tupleGE _).subset ((List.take_sublist _ _).subset ht))
  exact ⟨hp.2.1, hp.2.2⟩

theorem getTop_nodup (fd : ComplexImage) (k : ℕ) :
    (getTopFrequencyIndices fd k).Nodup := by
  unfold getTopFrequencyIndices
  refine List.Nodup.map_on ?_
    ((List.take_sublist _ _).nodup
      ((List.perm_insertionSort tupleGE _).symm.nodup (magTuples_nodup fd)))
  intro t1 h1 t2 h2 he
  have hp1 := magTuples_mem_prop
    ((List.perm_insertionSort tupleGE _).subset ((List.take_sublist _ _).subset h1))
  have hp2 := magTuples_mem_prop
    ((List.perm_insertionSort tupleGE _).subset ((List.take_sublist _ _).subset h2))
  have e1 : t1.2.1 = t2.2.1 := congrArg Prod.fst he
  have e2 : t1.2.2 = t2.2.2 := congrArg Prod.snd he
  have e0 : t1.1 = t2.1 := by rw [hp1.1, hp2.1, e1, e2]
  obtain ⟨a1, b1, c1⟩ := t1
  obtain ⟨a2, b2, c2⟩ := t2
  simp only at e0 e1 e2
  rw [e0, e1, e2]

/-- C3: `getTopFrequencyIndices` returns exactly `min k (W*H)` coordinates,
their samples' magnitudes are in non-increasing order, and if the image has
at most `k` pixels every pixel's coordinate is returned. -/
theorem C3_top_k (img : ComplexImage) (k : ℕ) :
    (getTopFrequencyIndices img k).length = min k (img.width * img.height) ∧
    List.Pairwise (fun c1 c2 : ℕ × ℕ =>
      Complex.abs (img.atXY c2.1 c2.2) ≤ Complex.abs (img.atXY c1.1 c1.2))
      (getTopFrequencyIndices img k) ∧
    (img.width * img.height ≤ k →
      ∀ x y, x < img.width → y < img.height → (x, y) ∈ getTopFrequencyIndices img k) := by
  have hperm := List.perm_insertionSort tupleGE (magTuples img)
  have hlen : (List.insertionSort tupleGE (magTuples img)).length
      = img.width * img.height := by
    rw [hperm.length_eq, magTuples_length]
  refine ⟨?_, ?_, ?_⟩
  · unfold getTopFrequencyIndices
    rw [List.length_map, List.length_take, hlen, magTuples_length]
    omega
  · unfold getTopFrequencyIndices
    rw [List.pairwise_map]
    refine List.Pairwise.imp_of_mem ?_
      (List.Pairwise.sublist (List.take_sublist _ _)
        (List.sorted_insertionSort tupleGE (magTuples img)))
    intro a b ha hb hab
    have hpa := magTuples_mem_prop (hperm.subset ((List.take_sublist _ _).subset ha))
    have hpb := magTuples_mem_prop (hperm.subset ((List.take_sublist _ _).subset hb))
    rw [← hpa.1, ← hpb.1]
    rcases hab with h | ⟨h, _⟩
    · exact le_of_lt h
    · exact le_of_eq h
  · intro hk x y hx hy
    unfold getTopFrequencyIndices
    have hfull : min k (magTuples img).length
        = (List.insertionSort tupleGE (magTuples img)).length := by
      rw [magTuples_length, hlen]
      omega
    rw [hfull, List.take_length, List.mem_map]
    refine ⟨(Complex.abs (img.atXY x y), x, y), ?_, rfl⟩
    rw [hperm.mem_iff]
    unfold magTuples
    rw [List.mem_map]
    refine ⟨y * img.width + x, ?_, ?_⟩
    · rw [List.mem_range]
      exact rowmajor_lt hx hy
    · rw [rowmajor_mod y hx, rowmajor_div y hx]

/-- C3 (witness): for the 1×1 image `[2]` and `k = 3`, one coordinate is
returned (`min 3 1 = 1`) and it is the only pixel `(0,0)`. -/
theorem C3_witness :
    (getTopFrequencyIndices (⟨1, 1, [((2 : ℝ) : ℂ)]⟩ : ComplexImage) 3).length = min 3 1 ∧
    (0, 0) ∈ getTopFrequencyIndices (⟨1, 1, [((2 : ℝ) : ℂ)]⟩ : ComplexImage) 3 :=
  ⟨(C3_top_k ⟨1, 1, [((2 : ℝ) : ℂ)]⟩ 3).1,
    (C3_top_k ⟨1, 1, [((2 : ℝ) : ℂ)]⟩ 3).2.2 (by norm_num) 0 0 (by norm_num) (by norm_num)⟩

/-! ## Claim C4: keepTopFrequencies -/

@[simp] theorem setAtXY_width (a : ComplexImage) (x y : ℕ) (c : ℂ) :
    (setAtXY a x y c).width = a.width := rfl

@[simp] theorem setAtXY_height (a : ComplexImage) (x y : ℕ) (c : ℂ) :
    (setAtXY a x y c).height = a.height := rfl

@[simp] theorem setAtXY_data_length (a : ComplexImage) (x y : ℕ) (c : ℂ) :
    (setAtXY a x y c).data.length = a.data.length := by
  simp [setAtXY]

theorem setAtXY_atXY_self {a : ComplexImage} {x y : ℕ} (c : ℂ) (hx : x < a.width)
    (hy : y < a.height) (hlen : a.data.length = a.width * a.height) :
    (setAtXY a x y c).atXY x y = c := by
  unfold setAtXY ComplexImage.atXY
  simp only
  rw [List.getD_eq_getElem?_getD,
    List.getElem?_set_self (by rw [hlen]; exact rowmajor_lt hx hy)]
  rfl

theorem setAtXY_atXY_ne {a : ComplexImage} {cx cy x y : ℕ} (c : ℂ)
    (h : cy * a.width + cx ≠ y * a.width + x) :
    (setAtXY a cx cy c).atXY x y = a.atXY x y := by
  unfold setAtXY ComplexImage.atXY
  simp only
  rw [List.getD_eq_getElem?_getD, List.getD_eq_getElem?_getD, List.getElem?_set_ne h]

theorem foldl_keep_width (fd : ComplexImage) :
    ∀ (l : List (ℕ × ℕ)) (acc : ComplexImage),
      (List.foldl (fun a (xy : ℕ × ℕ) => setAtXY a xy.1 xy.2 (fd.atXY xy.1 xy.2)) acc l).width
        = acc.width := by
  intro l
  induction l with
  | nil => intro acc; rfl
  | cons c cs ih => intro acc; exact ih _

theorem foldl_keep_height (fd : ComplexImage) :
    ∀ (l : List (ℕ × ℕ)) (acc : ComplexImage),
      (List.foldl (fun a (xy : ℕ × ℕ) => setAtXY a xy.1 xy.2 (fd.atXY xy.1 xy.2)) acc l).height
        = acc.height := by
  intro l
  induction l with
  | nil => intro acc; rfl
  | cons c cs ih => intro acc; exact ih _

theorem foldl_keep_atXY (fd : ComplexImage) :
    ∀ (l : List (ℕ × ℕ)) (acc : ComplexImage), acc.width = fd.width →
      acc.height = fd.height → acc.data.length = fd.width * fd.height → l.Nodup →
      (∀ c ∈ l, c.1 < fd.width ∧ c.2 < fd.height) →
      ∀ x y, x < fd.width → y < fd.height →
        (List.foldl (fun a (xy : ℕ × ℕ) => setAtXY a xy.1 xy.2 (fd.atXY xy.1 xy.2)) acc l).atXY
            x y
          = if (x, y) ∈ l then fd.atXY x y else acc.atXY x y := by
  intro l
  induction l with
  | nil =>
    intro acc _ _ _ _ _ x y _ _
    simp
  | cons c cs ih =>
    intro acc hw hh hlen hnd hmem x y hx hy
    have hc := hmem c (by simp)
    simp only [List.foldl_cons]
    rw [ih (setAtXY acc c.1 c.2 (fd.atXY c.1 c.2)) hw hh (by simpa using hlen)
      hnd.of_cons (fun c' hc' => hmem c' (by simp [hc'])) x y hx hy]
    by_cases hxy : (x, y) ∈ cs
    · rw [if_pos hxy, if_pos (by simp [hxy])]
    · rw [if_neg hxy]
      by_cases hceq : (x, y) = c
      · rw [if_pos (by simp [hceq])]
        have hx1 : x = c.1 := congrArg Prod.fst hceq
        have hy1 : y = c.2 := congrArg Prod.snd hceq
        rw [hx1, hy1,
          setAtXY_atXY_self _ (by rw [hw]; exact hc.1) (by rw [hh]; exact hc.2)
            (by rw [hw, hh]; exact hlen)]
      · rw [if_neg (by simp [List.mem_cons, hxy, hceq])]
        apply setAtXY_atXY_ne
        intro hidx
        rw [hw] at hidx
        obtain ⟨e1, e2⟩ := rowmajor_inj hc.1 hx hidx
        apply hceq
        have : (x, y) = (c.1, c.2) := by rw [e1, e2]
        rw [this]

/-- C4: `keepTopFrequencies` returns an image of the input's dimensions that
agrees with the input at every coordinate returned by
`getTopFrequencyIndices` and is exactly `0` at every other coordinate. -/
theorem C4_keep_top (fd : ComplexImage) (k : ℕ) :
    (keepTopFrequencies fd k).width = fd.width ∧
    (keepTopFrequencies fd k).height = fd.height ∧
    (∀ c ∈ getTopFrequencyIndices fd k,
      (keepTopFrequencies fd k).atXY c.1 c.2 = fd.atXY c.1 c.2) ∧
    (∀ x y, x < fd.width → y < fd.height → (x, y) ∉ getTopFrequencyIndices fd k →
      (keepTopFrequencies fd k).atXY x y = 0) := by
  have hfold := foldl_keep_atXY fd (getTopFrequencyIndices fd k)
    (zeroImage fd.width fd.height) rfl rfl (by simp [zeroImage])
    (getTop_nodup fd k) getTop_mem_bounds
  refine ⟨foldl_keep_width fd _ _, foldl_keep_height fd _ _, ?_, ?_⟩
  · intro c hc
    have hb := getTop_mem_bounds c hc
    unfold keepTopFrequencies
    rw [hfold c.1 c.2 hb.1 hb.2, if_pos (by rw [Prod.mk.eta]; exact hc)]
  · intro x y hx hy hnot
    unfold keepTopFrequencies
    rw [hfold x y hx hy, if_neg hnot, zeroImage_atXY]

/-- C4 (witness): for the 1×1 image `[3]`, `keepTopFrequencies` with `k = 1`
keeps the single pixel and with `k = 0` zeroes it. -/
theorem C4_witness :
    (keepTopFrequencies (⟨1, 1, [((3 : ℝ) : ℂ)]⟩ : ComplexImage) 1).width = 1 ∧
    (keepTopFrequencies (⟨1, 1, [((3 : ℝ) : ℂ)]⟩ : ComplexImage) 1).atXY 0 0
      = (⟨1, 1, [((3 : ℝ) : ℂ)]⟩ : ComplexImage).atXY 0 0 ∧
    (keepTopFrequencies (⟨1, 1, [((3 : ℝ) : ℂ)]⟩ : ComplexImage) 0).atXY 0 0 = 0 := by
  have htop : getTopFrequencyIndices (⟨1, 1, [((3 : ℝ) : ℂ)]⟩ : ComplexImage) 1 = [(0, 0)] := by
    unfold getTopFrequencyIndices magTuples
    simp [List.insertionSort, List.orderedInsert]
  have htop0 : getTopFrequencyIndices (⟨1, 1, [((3 : ℝ) : ℂ)]⟩ : ComplexImage) 0 = [] := by
    unfold getTopFrequencyIndices
    simp
  refine ⟨(C4_keep_top ⟨1, 1, [((3 : ℝ) : ℂ)]⟩ 1).1, ?_, ?_⟩
  · exact (C4_keep_top ⟨1, 1, [((3 : ℝ) : ℂ)]⟩ 1).2.2.1 (0, 0) (by rw [htop]; simp)
  · exact (C4_keep_top ⟨1, 1, [((3 : ℝ) : ℂ)]⟩ 0).2.2.2 0 0 (by norm_num) (by norm_num)
      (by rw [htop0]; simp)

/-! ## Claim C7: setImage resets -/

/-- C7 (counterexample): `setImage` does not reset the animation flags: from
a prior state with `is_animating = true` and `animation_speed = 2`, the new
state keeps both (their default-initialized values would be `false` and
`1`), so "every field … the animation flags (enabled, speed multiplier) are
reset" is false. -/
theorem C7_counterexample :
    ((FourierVisualizer.setImage
        ⟨⟨0, 0, []⟩, zeroRGBImage 0 0,
          ⟨[], ⟨0, 0, []⟩, zeroRGBImage 0 0, 0, true, 2, 7, false⟩⟩
        (zeroImage 2 2)).animation_state.is_animating = true) ∧
    ((FourierVisualizer.setImage
        ⟨⟨0, 0, []⟩, zeroRGBImage 0 0,
          ⟨[], ⟨0, 0, []⟩, zeroRGBImage 0 0, 0, true, 2, 7, false⟩⟩
        (zeroImage 2 2)).animation_state.animation_speed = 2) :=
  ⟨rfl, rfl⟩

/-- C7 (amended): `setImage` stores the new image and overwrites the
frequency count (0), the active list ([]), the time accumulator (0), the
mode flag (grayscale) and the reconstruction (all-zero at the new image's
size); the animation flags (`is_animating`, `animation_speed`) and the
RGB-side state are left untouched, not reset. -/
theorem C7_set_image_resets (s : FourierVisualizer) (fd : ComplexImage) :
    (s.setImage fd).frequency_domain = fd ∧
    (s.setImage fd).animation_state.active_frequencies = [] ∧
    (s.setImage fd).animation_state.current_frequency_count = 0 ∧
    (s.setImage fd).animation_state.time_accumulator = 0 ∧
    (s.setImage fd).animation_state.is_rgb = false ∧
    ((s.setImage fd).animation_state.reconstructed_image.width = fd.width ∧
      (s.setImage fd).animation_state.reconstructed_image.height = fd.height ∧
      ∀ x y, (s.setImage fd).animation_state.reconstructed_image.atXY x y = 0) ∧
    (s.setImage fd).animation_state.is_animating = s.animation_state.is_animating ∧
    (s.setImage fd).animation_state.animation_speed = s.animation_state.animation_speed ∧
    (s.setImage fd).animation_state.reconstructed_rgb_image
      = s.animation_state.reconstructed_rgb_image ∧
    (s.setImage fd).rgb_frequency_domain = s.rgb_frequency_domain :=
  ⟨rfl, rfl, rfl, rfl, rfl, ⟨rfl, rfl, fun x y => zeroImage_atXY _ _ x y⟩, rfl, rfl, rfl, rfl⟩

/-! ## Claim C8: updateAnimation -/

theorem setFrequencyCount_state (s : FourierVisualizer) (k : ℕ) :
    (s.setFrequencyCount k).animation_state.current_frequency_count = k ∧
    (s.setFrequencyCount k).animation_state.time_accumulator
      = s.animation_state.time_accumulator ∧
    (s.setFrequencyCount k).animation_state.is_animating
      = s.animation_state.is_animating ∧
    (s.setFrequencyCount k).animation_state.animation_speed
      = s.animation_state.animation_speed ∧
    (s.setFrequencyCount k).frequency_domain = s.frequency_domain ∧
    (s.setFrequencyCount k).animation_state.is_rgb = s.animation_state.is_rgb := by
  unfold FourierVisualizer.setFrequencyCount
  by_cases h : k = s.animation_state.current_frequency_count
  · rw [if_pos h]
    exact ⟨h.symm, rfl, rfl, rfl, rfl, rfl⟩
  · rw [if_neg h]
    have hproj : ∀ t : FourierVisualizer,
        (if t.animation_state.is_rgb = true then t.reconstructRGBFromFrequencies
          else t.reconstructFromFrequencies).current_frequency_count
          = t.animation_state.current_frequency_count ∧
        (if t.animation_state.is_rgb = true then t.reconstructRGBFromFrequencies
          else t.reconstructFromFrequencies).time_accumulator
          = t.animation_state.time_accumulator ∧
        (if t.animation_state.is_rgb = true then t.reconstructRGBFromFrequencies
          else t.reconstructFromFrequencies).is_animating
          = t.animation_state.is_animating ∧
        (if t.animation_state.is_rgb = true then t.reconstructRGBFromFrequencies
          else t.reconstructFromFrequencies).animation_speed
          = t.animation_state.animation_speed ∧
        (if t.animation_state.is_rgb = true then t.reconstructRGBFromFrequencies
          else t.reconstructFromFrequencies).is_rgb
          = t.animation_state.is_rgb := by
      intro t
      split <;> exact ⟨rfl, rfl, rfl, rfl, rfl⟩
    obtain ⟨p1, p2, p3, p4, p5⟩ := hproj
      { s with animation_state :=
          { s.animation_state with current_frequency_count := k } }
    exact ⟨p1, p2, p3, p4, rfl, p5⟩

theorem updateAnimation_step (s : FourierVisualizer) (dt : ℚ)
    (h : s.animation_state.is_animating = true) :
    s.updateAnimation dt
      = FourierVisualizer.setFrequencyCount
          { s with animation_state := { s.animation_state with time_accumulator :=
              s.animation_state.time_accumulator + dt * s.animation_state.animation_speed } }
          (min (ratTrunc ((s.animation_state.time_accumulator
              + dt * s.animation_state.animation_speed) * 10))
            ((s.frequency_domain.width * s.frequency_domain.height : ℕ) : ℤ)).toNat := by
  unfold FourierVisualizer.updateAnimation
  rw [if_neg (by simp [h])]
  simp only [ne_eq]
  split
  · rfl
  · rename_i hne
    simp only [FourierVisualizer.setFrequencyCount]
    rw [if_pos (not_not.mp hne)]

/-- Repeated `updateAnimation` calls with a fixed time step. -/
def iterUpdate (s : FourierVisualizer) (dt : ℚ) : ℕ → FourierVisualizer
  | 0 => s
  | n + 1 => (iterUpdate s dt n).updateAnimation dt

theorem ratTrunc_nonneg_eq_floor {q : ℚ} (h : 0 ≤ q) : ratTrunc q = ⌊q⌋ := by
  unfold ratTrunc
  rw [if_pos h]

theorem updateAnimation_proj (s : FourierVisualizer) (dt : ℚ)
    (h : s.animation_state.is_animating = true) :
    (s.updateAnimation dt).animation_state.current_frequency_count
      = (min (ratTrunc ((s.animation_state.time_accumulator
          + dt * s.animation_state.animation_speed) * 10))
        ((s.frequency_domain.width * s.frequency_domain.height : ℕ) : ℤ)).toNat ∧
    (s.updateAnimation dt).animation_state.time_accumulator
      = s.animation_state.time_accumulator + dt * s.animation_state.animation_speed ∧
    (s.updateAnimation dt).animation_state.is_animating = true ∧
    (s.updateAnimation dt).animation_state.animation_speed
      = s.animation_state.animation_speed ∧
    (s.updateAnimation dt).frequency_domain = s.frequency_domain := by
  rw [updateAnimation_step s dt h]
  obtain ⟨h1, h2, h3, h4, h5, _⟩ := setFrequencyCount_state
    { s with animation_state := { s.animation_state with time_accumulator :=
        s.animation_state.time_accumulator + dt * s.animation_state.animation_speed } }
    (min (ratTrunc ((s.animation_state.time_accumulator
        + dt * s.animation_state.animation_speed) * 10))
      ((s.frequency_domain.width * s.frequency_domain.height : ℕ) : ℤ)).toNat
  exact ⟨h1, h2, by rw [h3]; exact h, h4, h5⟩

theorem iterUpdate_invariant (s : FourierVisualizer) (dt : ℚ)
    (h : s.animation_state.is_animating = true) :
    ∀ n : ℕ, (iterUpdate s dt n).animation_state.is_animating = true ∧
      (iterUpdate s dt n).animation_state.animation_speed
        = s.animation_state.animation_speed ∧
      (iterUpdate s dt n).frequency_domain = s.frequency_domain ∧
      (iterUpdate s dt n).animation_state.time_accumulator
        = s.animation_state.time_accumulator
          + n * (dt * s.animation_state.animation_speed) := by
  intro n
  induction n with
  | zero =>
    refine ⟨h, rfl, rfl, ?_⟩
    show s.animation_state.time_accumulator = _
    push_cast
    ring
  | succ n ih =>
    obtain ⟨ia, isp, ifd, iacc⟩ := ih
    obtain ⟨_, pacc, pa, psp, pfd⟩ := updateAnimation_proj (iterUpdate s dt n) dt ia
    have hstep : iterUpdate s dt (n + 1) = (iterUpdate s dt n).updateAnimation dt := rfl
    rw [hstep]
    refine ⟨pa, by rw [psp, isp], by rw [pfd, ifd], ?_⟩
    rw [pacc, iacc, isp]
    push_cast
    ring

theorem iterUpdate_count (s : FourierVisualizer) (dt : ℚ)
    (h : s.animation_state.is_animating = true) (n : ℕ) :
    (iterUpdate s dt (n + 1)).animation_state.current_frequency_count
      = (min (ratTrunc ((s.animation_state.time_accumulator
          + ((n : ℚ) + 1) * (dt * s.animation_state.animation_speed)) * 10))
        ((s.frequency_domain.width * s.frequency_domain.height : ℕ) : ℤ)).toNat := by
  obtain ⟨ia, isp, ifd, iacc⟩ := iterUpdate_invariant s dt h n
  obtain ⟨pc, _, _, _, _⟩ := updateAnimation_proj (iterUpdate s dt n) dt ia
  have hstep : iterUpdate s dt (n + 1) = (iterUpdate s dt n).updateAnimation dt := rfl
  rw [hstep, pc, iacc, isp, ifd]
  have harg : (s.animation_state.time_accumulator
        + (n : ℚ) * (dt * s.animation_state.animation_speed)
        + dt * s.animation_state.animation_speed) * 10
      = (s.animation_state.time_accumulator
        + ((n : ℚ) + 1) * (dt * s.animation_state.animation_speed)) * 10 := by
    ring
  rw [harg]

/-- C8: with animation enabled, every call accumulates `dt * speed`, sets the
current count to `min(trunc(accumulator*10), W*H)` of the held (grayscale)
frequency-domain image — so repeated calls with fixed non-negative `dt` and
non-negative speed produce a non-decreasing count sequence bounded by `W*H` —
the recomputation is skipped (the state changes only in the accumulator)
exactly when the target equals the current count, and a call with animation
disabled changes nothing at all. -/
theorem C8_animation_sweep :
    (∀ (s : FourierVisualizer) (dt : ℚ), s.animation_state.is_animating = false →
      s.updateAnimation dt = s) ∧
    (∀ (s : FourierVisualizer) (dt : ℚ), s.animation_state.is_animating = true →
      (s.updateAnimation dt).animation_state.current_frequency_count
        = (min (ratTrunc ((s.animation_state.time_accumulator
            + dt * s.animation_state.animation_speed) * 10))
          ((s.frequency_domain.width * s.frequency_domain.height : ℕ) : ℤ)).toNat ∧
      (s.updateAnimation dt).animation_state.current_frequency_count
        ≤ s.frequency_domain.width * s.frequency_domain.height ∧
      (s.updateAnimation dt).animation_state.time_accumulator
        = s.animation_state.time_accumulator + dt * s.animation_state.animation_speed) ∧
    (∀ (s : FourierVisualizer) (dt : ℚ), s.animation_state.is_animating = true →
      (min (ratTrunc ((s.animation_state.time_accumulator
          + dt * s.animation_state.animation_speed) * 10))
        ((s.frequency_domain.width * s.frequency_domain.height : ℕ) : ℤ)).toNat
        = s.animation_state.current_frequency_count →
      s.updateAnimation dt
        = { s with animation_state := { s.animation_state with
            time_accumulator := s.animation_state.time_accumulator
              + dt * s.animation_state.animation_speed } }) ∧
    (∀ (s : FourierVisualizer) (dt : ℚ), s.animation_state.is_animating = true →
      0 ≤ dt → 0 ≤ s.animation_state.animation_speed →
      0 ≤ s.animation_state.time_accumulator →
      ∀ n m : ℕ, 1 ≤ n → n ≤ m →
        (iterUpdate s dt n).animation_state.current_frequency_count
          ≤ (iterUpdate s dt m).animation_state.current_frequency_count ∧
        (iterUpdate s dt m).animation_state.current_frequency_count
          ≤ s.frequency_domain.width * s.frequency_domain.height) := by
  refine ⟨?_, ?_, ?_, ?_⟩
  · intro s dt h
    unfold FourierVisualizer.updateAnimation
    rw [if_pos h]
  · intro s dt h
    obtain ⟨pc, pacc, _, _, _⟩ := updateAnimation_proj s dt h
    refine ⟨pc, ?_, pacc⟩
    rw [pc]
    omega
  · intro s dt h heq
    rw [updateAnimation_step s dt h]
    unfold FourierVisualizer.setFrequencyCount
    rw [if_pos heq]
  · intro s dt h hdt hsp hacc n m hn hm
    obtain ⟨n1, rfl⟩ : ∃ n1, n = n1 + 1 := ⟨n - 1, by omega⟩
    obtain ⟨m1, rfl⟩ : ∃ m1, m = m1 + 1 := ⟨m - 1, by omega⟩
    rw [iterUpdate_count s dt h n1, iterUpdate_count s dt h m1]
    have hq : (0 : ℚ) ≤ dt * s.animation_state.animation_speed := mul_nonneg hdt hsp
    have hargn : (0 : ℚ) ≤ (s.animation_state.time_accumulator
        + ((n1 : ℚ) + 1) * (dt * s.animation_state.animation_speed)) * 10 := by
      have h1 : (0 : ℚ) ≤ ((n1 : ℚ) + 1) := by positivity
      nlinarith
    have hargm : (0 : ℚ) ≤ (s.animation_state.time_accumulator
        + ((m1 : ℚ) + 1) * (dt * s.animation_state.animation_speed)) * 10 := by
      have h1 : (0 : ℚ) ≤ ((m1 : ℚ) + 1) := by positivity
      nlinarith
    constructor
    · have hle : (s.animation_state.time_accumulator
          + ((n1 : ℚ) + 1) * (dt * s.animation_state.animation_speed)) * 10
          ≤ (s.animation_state.time_accumulator
          + ((m1 : ℚ) + 1) * (dt * s.animation_state.animation_speed)) * 10 := by
        have hcast : ((n1 : ℚ) + 1) ≤ ((m1 : ℚ) + 1) := by
          have : (n1 : ℚ) ≤ (m1 : ℚ) := by exact_mod_cast (by omega : n1 ≤ m1)
          linarith
        nlinarith
      rw [ratTrunc_nonneg_eq_floor hargn, ratTrunc_nonneg_eq_floor hargm]
      have hfl := Int.floor_le_floor hle
      omega
    · omega

/-- C8 (witness): the four parts of the animation theorem at concrete
states: a disabled state is unchanged; an enabled state over a 1×1 held
image with `dt = 0` keeps its count, skips the recomputation, and its
iterated counts are monotone and bounded. -/
theorem C8_witness :
    (FourierVisualizer.updateAnimation
        ⟨⟨1, 1, [((1 : ℝ) : ℂ)]⟩, zeroRGBImage 0 0,
          ⟨[], ⟨0, 0, []⟩, zeroRGBImage 0 0, 0, false, 1, 0, false⟩⟩ 1
      = ⟨⟨1, 1, [((1 : ℝ) : ℂ)]⟩, zeroRGBImage 0 0,
          ⟨[], ⟨0, 0, []⟩, zeroRGBImage 0 0, 0, false, 1, 0, false⟩⟩) ∧
    ((FourierVisualizer.updateAnimation
        ⟨⟨1, 1, [((1 : ℝ) : ℂ)]⟩, zeroRGBImage 0 0,
          ⟨[], ⟨0, 0, []⟩, zeroRGBImage 0 0, 0, true, 1, 0, false⟩⟩ 0).animation_state.current_frequency_count
        ≤ 1 * 1) ∧
    ((iterUpdate
        ⟨⟨1, 1, [((1 : ℝ) : ℂ)]⟩, zeroRGBImage 0 0,
          ⟨[], ⟨0, 0, []⟩, zeroRGBImage 0 0, 0, true, 1, 0, false⟩⟩ 0 1).animation_state.current_frequency_count
      ≤ (iterUpdate
        ⟨⟨1, 1, [((1 : ℝ) : ℂ)]⟩, zeroRGBImage 0 0,
          ⟨[], ⟨0, 0, []⟩, zeroRGBImage 0 0, 0, true, 1, 0, false⟩⟩ 0 2).animation_state.current_frequency_count) := by
  refine ⟨C8_animation_sweep.1 _ 1 rfl, ?_, ?_⟩
  · exact (C8_animation_sweep.2.1 _ 0 rfl).2.1
  · exact (C8_animation_sweep.2.2.2 _ 0 rfl (by norm_num) (by norm_num) (by norm_num)
      1 2 (by norm_num) (by norm_num)).1

end
